import Mathlib

/-!
Verification of the mcdex dependency-graph engine.

This file gives a shallow embedding of the core of the repository:

* the generic graph structure `Graph` of `algo/topo.go` (nodes keyed by
  value identity; here keys are `Nat`, standing for the manifest file id
  that uniquely identifies each `*ManifestFileEntry` node value),
* the topological sort `Graph.Sorted` (Kahn's algorithm seeded from root
  nodes, exactly as in `topo.go`),
* the three-phase removal impact analysis `_processDeps` of the main
  package (phase 1: bounded BFS over dependent edges; phase 2: orphaned
  dependencies over the topological order; phase 3: dangling optionals),
* the removal executor `_removeMods`.

Go maps are embedded as association lists (first hit wins on lookup, as a
map has at most one entry per key); Go map-set insertion is idempotent
insertion into a duplicate-free list.  Go's nondeterministic map iteration
order is determinized to the underlying list order, which the spec allows
(any stable order).
-/

namespace Mcdex

/-- Association-list lookup, the embedding of a Go map read: the first
entry with the given key wins. -/
def alistFind? {α : Type} : List (Nat × α) → Nat → Option α
  | [], _ => none
  | (k', v) :: rest, k => if k' = k then some v else alistFind? rest k

/-- One node of `algo.Graph`: the three edge sets of `algo.Node`
(`Dependents`, `Dependencies`, `Optionals`), each a Go map-set embedded as
a duplicate-free list.  The wrapped `Value` is the node's key itself. -/
structure Node where
  Dependents : List Nat
  Dependencies : List Nat
  Optionals : List Nat
deriving DecidableEq, Repr

/-- The empty node created by `Graph.AddNode`. -/
def Node.empty : Node := ⟨[], [], []⟩

/-- The graph of `algo/topo.go`: a map from value to node. -/
abbrev Graph : Type := List (Nat × Node)

/-- Idempotent insertion into a Go map-set. -/
def listInsert (x : Nat) (l : List Nat) : List Nat :=
  if x ∈ l then l else l ++ [x]

/-- Keys of the graph, in insertion order. -/
def Graph.keys (g : Graph) : List Nat := g.map Prod.fst

/-- Lookup of a node by key (`g[key]` in Go). -/
def Graph.find? (g : Graph) (k : Nat) : Option Node := alistFind? g k

/-- Update the node stored at a key, leaving the graph unchanged when the
key is absent. -/
def Graph.upd (g : Graph) (k : Nat) (f : Node → Node) : Graph :=
  g.map (fun p => if p.1 = k then (p.1, f p.2) else p)

/-- Source `Graph.AddNode`: pure upsert, creates a node with empty edge
sets when the key is absent. -/
def Graph.AddNode (g : Graph) (k : Nat) : Graph :=
  if (Graph.find? g k).isSome then g else g ++ [(k, Node.empty)]

/-- One step of source `Node.AddDependencies`: ensure the target node
exists, insert it into the source node's `Dependencies` and insert the
source into the target's `Dependents`. -/
def Graph.addDep1 (g : Graph) (src dst : Nat) : Graph :=
  let g1 := Graph.AddNode g dst
  let g2 := Graph.upd g1 src (fun n => { n with Dependencies := listInsert dst n.Dependencies })
  Graph.upd g2 dst (fun n => { n with Dependents := listInsert src n.Dependents })

/-- Source `Node.AddDependencies(keys...)` called on the node stored at
`src`. -/
def Graph.AddDependencies (g : Graph) (src : Nat) (keys : List Nat) : Graph :=
  keys.foldl (fun g k => Graph.addDep1 g src k) g

/-- One step of source `Node.AddOptionals`: ensure the target node exists
and insert it into the source node's `Optionals` only. -/
def Graph.addOpt1 (g : Graph) (src dst : Nat) : Graph :=
  let g1 := Graph.AddNode g dst
  Graph.upd g1 src (fun n => { n with Optionals := listInsert dst n.Optionals })

/-- Source `Node.AddOptionals(keys...)` called on the node stored at
`src`. -/
def Graph.AddOptionals (g : Graph) (src : Nat) (keys : List Nat) : Graph :=
  keys.foldl (fun g k => Graph.addOpt1 g src k) g

/-- Source `Node.IsRoot`: no dependents. -/
def Node.IsRoot (n : Node) : Bool := n.Dependents.isEmpty

/-- Source `Node.IsLeaf`: no dependencies. -/
def Node.IsLeaf (n : Node) : Bool := n.Dependencies.isEmpty

/-- Source `Graph.RemoveNode`: delete the node and scrub it from every
other node's three edge sets. -/
def Graph.RemoveNode (g : Graph) (k : Nat) : Graph :=
  if (Graph.find? g k).isNone then g
  else
    (g.filter (fun p => p.1 ≠ k)).map (fun p =>
      (p.1, { Dependents := p.2.Dependents.filter (fun x => x ≠ k)
              Dependencies := p.2.Dependencies.filter (fun x => x ≠ k)
              Optionals := p.2.Optionals.filter (fun x => x ≠ k) }))

/-- The edge scrub `Graph.RemoveNode` applies to every surviving node:
the removed key is deleted from all three edge sets. -/
def scrubN (k : Nat) (n : Node) : Node :=
  { Dependents := n.Dependents.filter (fun x => x ≠ k)
    Dependencies := n.Dependencies.filter (fun x => x ≠ k)
    Optionals := n.Optionals.filter (fun x => x ≠ k) }

/-- Dependents edge list of the node at a key (empty when absent). -/
def Graph.dependentsOf (g : Graph) (k : Nat) : List Nat :=
  ((Graph.find? g k).map Node.Dependents).getD []

/-- Dependencies edge list of the node at a key (empty when absent). -/
def Graph.depsOf (g : Graph) (k : Nat) : List Nat :=
  ((Graph.find? g k).map Node.Dependencies).getD []

/-- Optionals edge list of the node at a key (empty when absent). -/
def Graph.optsOf (g : Graph) (k : Nat) : List Nat :=
  ((Graph.find? g k).map Node.Optionals).getD []

/-! ### Topological sort (`Graph.Sorted`, Kahn's algorithm) -/

/-- Degree-map read with Go zero-value semantics: a missing key reads 0. -/
def degGet (ds : List (Nat × Int)) (k : Nat) : Int := (alistFind? ds k).getD 0

/-- Degree-map write. -/
def degSet : List (Nat × Int) → Nat → Int → List (Nat × Int)
  | [], k, v => [(k, v)]
  | (k', v') :: rest, k, v =>
    if k' = k then (k, v) :: rest else (k', v') :: degSet rest k v

/-- Processing of one popped node in `Graph.Sorted`: decrement the degree
of each of its dependencies; a dependency whose degree reaches exactly 0
is appended to the work queue. -/
def kahnStep (g : Graph) (deg : List (Nat × Int)) (q : List Nat) (n : Nat) :
    List (Nat × Int) × List Nat :=
  (Graph.depsOf g n).foldl
    (fun (p : List (Nat × Int) × List Nat) d =>
      let v := degGet p.1 d - 1
      let ds := degSet p.1 d v
      if v = 0 then (ds, p.2 ++ [d]) else (ds, p.2))
    (deg, q)

/-- Work loop of `Graph.Sorted`.  The Go loop runs until the queue is
empty; every iteration pops one node and appends it to the output, and
(as proved below) each node is enqueued at most once, so `g.length`
iterations always suffice and the fuel never cuts the loop short. -/
def kahnLoop (g : Graph) : Nat → List Nat → List (Nat × Int) → List Nat → List Nat
  | 0, _, _, sorted => sorted
  | _ + 1, [], _, sorted => sorted
  | fuel + 1, n :: rest, deg, sorted =>
    let p := kahnStep g deg rest n
    kahnLoop g fuel p.2 p.1 (sorted ++ [n])

/-- Root nodes of the graph, in graph order. -/
def Graph.roots (g : Graph) : List Nat :=
  (g.filter (fun p => p.2.Dependents.isEmpty)).map Prod.fst

/-- Initial degree map of `Graph.Sorted`: every non-root node mapped to
the size of its dependents set. -/
def Graph.degInit (g : Graph) : List (Nat × Int) :=
  (g.filter (fun p => ¬ p.2.Dependents.isEmpty)).map
    (fun p => (p.1, (p.2.Dependents.length : Int)))

/-- Source `Graph.Sorted`: Kahn's algorithm seeded from the roots,
consuming dependency edges. -/
def Graph.Sorted (g : Graph) : List Nat :=
  kahnLoop g g.length (Graph.roots g) (Graph.degInit g) []

/-! ### Removal impact analysis (`_processDeps`)

Nodes are keyed by the manifest file id, which identifies the
`*ManifestFileEntry` node value (the spec's own portable keying).  The
`relatedMods` visited map becomes `List (Nat × Nat)` (node to depth), the
three result maps become association lists from key to list of keys. -/

/-- The Go `math.MaxInt32` bound substituted for a negative `maxDepth`. -/
def MaxInt32 : Nat := 2147483647

/-- Append a value to the list stored under a key of a Go
map-of-slices (`result.dependents[k] = append(r, v)`). -/
def mapAppend (m : List (Nat × List Nat)) (k : Nat) (v : Nat) : List (Nat × List Nat) :=
  match alistFind? m k with
  | some _ => m.map (fun p => if p.1 = k then (p.1, p.2 ++ [v]) else p)
  | none => m ++ [(k, [v])]

/-- Assign the list stored under a key (`result.dependencies[k] = l`). -/
def mapSet (m : List (Nat × List Nat)) (k : Nat) (l : List Nat) : List (Nat × List Nat) :=
  match alistFind? m k with
  | some _ => m.map (fun p => if p.1 = k then (p.1, l) else p)
  | none => m ++ [(k, l)]

/-- Go map deletion (`delete(m, k)`). -/
def mapDelete (m : List (Nat × List Nat)) (k : Nat) : List (Nat × List Nat) :=
  m.filter (fun p => p.1 ≠ k)

/-- Deletion from the visited map (`delete(relatedMods, o)`). -/
def relDelete (m : List (Nat × Nat)) (k : Nat) : List (Nat × Nat) :=
  m.filter (fun p => p.1 ≠ k)

/-- Sum of the sizes of all dependents sets; an upper bound on the number
of queue pushes the phase-1 BFS can ever perform. -/
def totalDependents (g : Graph) : Nat :=
  (g.map (fun p => p.2.Dependents.length)).sum

/-- Phase-1 BFS loop of `_processDeps`.  The queue carries (node, depth)
pairs (the Go code keeps two parallel slices popped in lockstep).  The
loop stops when the queue is empty or the front depth reaches `maxDepth`;
a popped node already visited is skipped, otherwise it is recorded in
`relatedMods` at its depth and each of its dependents is pushed at
depth+1 and gains the popped node in its `result.dependents` entry.  The
fuel is an upper bound on queue insertions, so it never cuts the Go loop
short. -/
def bfsLoop (g : Graph) (md : Nat) :
    Nat → List (Nat × Nat) → List (Nat × Nat) → List (Nat × List Nat) →
    List (Nat × Nat) × List (Nat × List Nat)
  | 0, _, rel, dep => (rel, dep)
  | _ + 1, [], rel, dep => (rel, dep)
  | fuel + 1, (d, depth) :: rest, rel, dep =>
    if md ≤ depth then (rel, dep)
    else if (alistFind? rel d).isSome then bfsLoop g md fuel rest rel dep
    else
      let dds := Graph.dependentsOf g d
      bfsLoop g md fuel (rest ++ dds.map (fun dd => (dd, depth + 1)))
        (rel ++ [(d, depth)])
        (dds.foldl (fun m dd => mapAppend m dd d) dep)

/-- Seeds of the phase-1 BFS: the graph nodes (in graph order) whose file
id belongs to the target set; these are also the `result.targets`. -/
def seeds (g : Graph) (tids : List Nat) : List Nat :=
  (Graph.keys g).filter (fun k => k ∈ tids)

/-- Result of phase 1: the visited map, the `dependents` result map and
the `targets` set. -/
structure Phase1Out where
  rel : List (Nat × Nat)
  dependents : List (Nat × List Nat)
  targets : List Nat
deriving DecidableEq, Repr

/-- Phase 1 of `_processDeps` ("Find all dependents"). -/
def phase1 (g : Graph) (tids : List Nat) (md : Nat) : Phase1Out :=
  let s := seeds g tids
  let p := bfsLoop g md (g.length + totalDependents g + 1)
    (s.map (fun k => (k, 0))) [] []
  ⟨p.1, p.2, s⟩

/-- Inner dependents scan of phase 2.  Walking the candidate's dependents
with the accumulated `parents` list and `minDepth` value: a dependent that
is unvisited or visited at depth ≥ `maxDepth` aborts the whole candidate
(the labelled `continue Outer`), otherwise it is appended to `parents`,
and `minDepth` is updated exactly as in the source (`minDepth` starts at
0 and is replaced by `depth+1` only when `depth+1 < minDepth`). -/
def checkDependents (rel : List (Nat × Nat)) (md : Nat) :
    List Nat → List Nat → Nat → Option (List Nat × Nat)
  | [], parents, minD => some (parents, minD)
  | d :: ds, parents, minD =>
    match alistFind? rel d with
    | none => none
    | some depth =>
      if md ≤ depth then none
      else checkDependents rel md ds (parents ++ [d])
        (if depth + 1 < minD then depth + 1 else minD)

/-- State threaded through phase 2: the visited map and the
`dependencies` result map. -/
structure Phase2St where
  rel : List (Nat × Nat)
  dependencies : List (Nat × List Nat)
deriving DecidableEq, Repr

/-- Processing of one node of the topological order in phase 2: skip
roots and already-visited nodes; otherwise, if every dependent is visited
below the bound, mark the candidate visited (at the computed `minDepth`)
and record its parents in `dependencies`. -/
def phase2Step (g : Graph) (md : Nat) (st : Phase2St) (m : Nat) : Phase2St :=
  match Graph.find? g m with
  | none => st
  | some node =>
    if node.Dependents.isEmpty then st
    else if (alistFind? st.rel m).isSome then st
    else
      match checkDependents st.rel md node.Dependents [] 0 with
      | none => st
      | some pm => ⟨st.rel ++ [(m, pm.2)], mapSet st.dependencies m pm.1⟩

/-- Phase 2 of `_processDeps` ("Find all dependencies that will no longer
have a dependent"): one pass over `mods.Sorted()`. -/
def phase2 (g : Graph) (md : Nat) (rel : List (Nat × Nat)) : Phase2St :=
  (Graph.Sorted g).foldl (phase2Step g md) ⟨rel, []⟩

/-- State threaded through phase 3: visited map, `dependencies` map and
`optionals` result map. -/
structure Phase3St where
  rel : List (Nat × Nat)
  dependencies : List (Nat × List Nat)
  optionals : List (Nat × List Nat)
deriving DecidableEq, Repr

/-- Processing of one optional edge in phase 3 (the body of the
`for o := range m.Optionals` loop).  The second component of the state is
the `opts` slice accumulated for the current node. -/
def phase3Opt (md : Nat) (st : Phase3St × List Nat) (o : Nat) : Phase3St × List Nat :=
  match alistFind? st.1.rel o with
  | none => st
  | some depth =>
    if md ≤ depth then st
    else if (alistFind? st.1.dependencies o).isSome then
      (⟨relDelete st.1.rel o, mapDelete st.1.dependencies o, st.1.optionals⟩, st.2)
    else (st.1, st.2 ++ [o])

/-- Processing of one graph node in phase 3: a visited node is skipped;
otherwise its optionals are scanned and, when the accumulated `opts`
slice is nonempty, it is recorded under the node in `optionals`. -/
def phase3Node (g : Graph) (md : Nat) (st : Phase3St) (m : Nat) : Phase3St :=
  if (alistFind? st.rel m).isSome then st
  else
    let node := (Graph.find? g m).getD Node.empty
    let p := node.Optionals.foldl (phase3Opt md) (st, [])
    if p.2.isEmpty then p.1
    else ⟨p.1.rel, p.1.dependencies, p.1.optionals ++ [(m, p.2)]⟩

/-- Phase 3 of `_processDeps` ("Find all related optional dependencies"):
one pass over the graph. -/
def phase3 (g : Graph) (md : Nat) (st : Phase3St) : Phase3St :=
  (Graph.keys g).foldl (phase3Node g md) st

/-- The analysis result of `_processDeps` (the four fields of `DepInfo`). -/
structure DepInfo where
  targets : List Nat
  dependents : List (Nat × List Nat)
  dependencies : List (Nat × List Nat)
  optionals : List (Nat × List Nat)
deriving DecidableEq, Repr

/-- The three phases of `_processDeps` chained on an already-converted
depth bound, returning the `DepInfo` and the final `relatedMods` map. -/
def processDepsAux (g : Graph) (tids : List Nat) (md : Nat) :
    DepInfo × List (Nat × Nat) :=
  let p1 := phase1 g tids md
  let p2 := phase2 g md p1.rel
  let p3 := phase3 g md ⟨p2.rel, p2.dependencies, []⟩
  (⟨p1.targets, p1.dependents, p3.dependencies, p3.optionals⟩, p3.rel)

/-- Source `_processDeps`: a negative `maxDepth` means unbounded
(`math.MaxInt32`). -/
def processDeps (g : Graph) (tids : List Nat) (maxDepth : Int) :
    DepInfo × List (Nat × Nat) :=
  processDepsAux g tids (if maxDepth < 0 then MaxInt32 else maxDepth.toNat)

/-! ### Removal executor (`_removeMods`) -/

/-- Modelled from the spec: the `ManifestFileEntry` struct itself is not
among the provided sources (only its uses are); per spec section 3 it
carries the manifest array index, project id and file id (the display
name and filename do not affect control flow and are omitted). -/
structure ManifestFileEntry where
  idx : Nat
  projId : Nat
  fileId : Nat
deriving DecidableEq, Repr

/-- Modelled from the spec: the manifest "files" array plus the effects
of the two collaborator calls `saveManifest` (a persisted flag) and
`CleanupModFile` (the list of project ids cleaned up, in call order).
Entries of the array are file ids. -/
structure PackState where
  files : List Nat
  saved : Bool
  cleanups : List Nat
deriving DecidableEq, Repr

/-- Modelled from the spec: `manifest.ArrayRemove(idx, "files")` deletes
the element at the index from the files array and fails when the index is
out of range. -/
def arrayRemove (files : List Nat) (idx : Nat) : Option (List Nat) :=
  if idx < files.length then some (files.eraseIdx idx) else none

/-- Insertion into a list sorted by descending manifest index. -/
def insertByIdxDesc (m : ManifestFileEntry) : List ManifestFileEntry → List ManifestFileEntry
  | [] => [m]
  | x :: xs => if x.idx < m.idx then m :: x :: xs else x :: insertByIdxDesc m xs

/-- The reverse sort by manifest index performed by `_removeMods`
(`sort.Slice(mods, mods[j].idx < mods[i].idx)`). -/
def sortByIdxDesc (mods : List ManifestFileEntry) : List ManifestFileEntry :=
  mods.foldr insertByIdxDesc []

/-- Error outcomes of `_removeMods`. -/
inductive RemoveErr where
  | noChanges
  | someFailed
deriving DecidableEq, Repr

/-- The removal loop of `_removeMods`: attempt each deletion in reverse
index order; a failed deletion is logged and skipped, a successful one
bumps the `done` counter and triggers cache cleanup for the project id. -/
def removeLoop (p : PackState × Nat) (m : ManifestFileEntry) : PackState × Nat :=
  match arrayRemove p.1.files m.idx with
  | none => p
  | some files' =>
    ({ p.1 with files := files', cleanups := p.1.cleanups ++ [m.projId] }, p.2 + 1)

/-- Body of `_removeMods` past the dry-run guard: the entries are removed
back-to-front, the manifest is saved when at least one deletion
succeeded, and the aggregate error reflects zero or only some successes.
(`saveManifest` is modelled as always succeeding.) -/
def removeModsRun (st : PackState) (mods : List ManifestFileEntry) :
    PackState × Option RemoveErr :=
  let p := (sortByIdxDesc mods).foldl removeLoop (st, 0)
  if 0 < p.2 then
    let st2 := { p.1 with saved := true }
    if p.2 < mods.length then (st2, some RemoveErr.someFailed) else (st2, none)
  else (p.1, some RemoveErr.noChanges)

/-- Source `_removeMods`: dry-run returns immediately with no error. -/
def removeMods (dryRun : Bool) (st : PackState) (mods : List ManifestFileEntry) :
    PackState × Option RemoveErr :=
  if dryRun then (st, none) else removeModsRun st mods

/-! ### Concrete test graphs -/

/-- Node 1 (a root) depends on node 2; removing 1 orphans 2. -/
def exOrphan : Graph := [(1, ⟨[], [2], []⟩), (2, ⟨[1], [], []⟩)]

/-- Node 2 depends on node 1 (so 2 is a dependent of 1). -/
def exChain : Graph := [(1, ⟨[2], [], []⟩), (2, ⟨[], [1], []⟩)]

/-- A two-cycle: 1 depends on 2 and 2 depends on 1. -/
def exCyc : Graph := [(1, ⟨[2], [2], []⟩), (2, ⟨[1], [1], []⟩)]

/-- Node 1 depends on 2, and node 3 optionally depends on 2. -/
def exUnorphan : Graph := [(1, ⟨[], [2], []⟩), (2, ⟨[1], [], []⟩), (3, ⟨[], [], [2]⟩)]

/-- Node 3 optionally depends on the isolated node 1. -/
def exDangling : Graph := [(1, ⟨[], [], []⟩), (3, ⟨[], [], [1]⟩)]

/-! ### Auxiliary notions used by the verification -/

/-- Number of successful manifest deletions performed by a (non-dry-run)
`_removeMods` call (its `done` counter). -/
def removedCount (st : PackState) (mods : List ManifestFileEntry) : Nat :=
  ((sortByIdxDesc mods).foldl removeLoop (st, 0)).2

/-- Sum of the dependents-set sizes over the nodes not yet visited: an
upper bound on the number of queue pushes the phase-1 BFS can still
perform. -/
def pushBudget (g : Graph) (rel : List (Nat × Nat)) : Nat :=
  ((g.filter (fun p => (alistFind? rel p.1).isNone)).map
    (fun p => p.2.Dependents.length)).sum

/-- Invariant carried through the phase-2 fold: every target stays
visited, no target is a `dependencies` key, and every `dependencies` key
is visited. -/
def P2Inv (T : List Nat) (st : Phase2St) : Prop :=
  (∀ t ∈ T, (alistFind? st.rel t).isSome) ∧
    (∀ t ∈ T, alistFind? st.dependencies t = none) ∧
    (∀ k, (alistFind? st.dependencies k).isSome → (alistFind? st.rel k).isSome)

/-- Invariant carried through the phase-3 fold (parametrized by the
target set `T`): targets stay visited, targets are never `dependencies`
or `optionals` keys, `dependencies` keys are visited, an `optionals` key
is never simultaneously a `dependencies` key, and no member of any
recorded optionals list is a `dependencies` key. -/
def P3Inv (T : List Nat) (st : Phase3St) : Prop :=
  (∀ t ∈ T, (alistFind? st.rel t).isSome) ∧
    (∀ t ∈ T, alistFind? st.dependencies t = none) ∧
    (∀ k, (alistFind? st.dependencies k).isSome → (alistFind? st.rel k).isSome) ∧
    (∀ t ∈ T, alistFind? st.optionals t = none) ∧
    (∀ k, (alistFind? st.optionals k).isSome →
      alistFind? st.dependencies k = none) ∧
    (∀ k l, alistFind? st.optionals k = some l → ∀ o ∈ l,
      alistFind? st.dependencies o = none)

/-- Invariant of the inner optionals scan of one phase-3 node, relative
to the state `st0` at the start of the node: the running state keeps the
first three conjuncts of `P3Inv`, accumulated optionals are never
`dependencies` keys, the optionals table is untouched, and the visited
map and `dependencies` map gain no new keys. -/
def P3OptInv (T : List Nat) (st0 : Phase3St) (p : Phase3St × List Nat) : Prop :=
  (∀ t ∈ T, (alistFind? p.1.rel t).isSome) ∧
    (∀ t ∈ T, alistFind? p.1.dependencies t = none) ∧
    (∀ k, (alistFind? p.1.dependencies k).isSome →
      (alistFind? p.1.rel k).isSome) ∧
    (∀ o ∈ p.2, alistFind? p.1.dependencies o = none) ∧
    p.1.optionals = st0.optionals ∧
    (∀ k, alistFind? st0.dependencies k = none →
      alistFind? p.1.dependencies k = none) ∧
    (∀ k, alistFind? st0.rel k = none → alistFind? p.1.rel k = none)

/-- Position of the first occurrence of a value in a list (length when
absent). -/
def listIdx : List Nat → Nat → Nat
  | [], _ => 0
  | x :: xs, a => if x = a then 0 else listIdx xs a + 1

/-- Invariant of the Kahn work loop inside `Graph.Sorted`, relating the
work queue, the degree map and the emitted prefix: output and queue are
duplicate-free graph nodes and disjoint; the degree of every node counts
its dependents not yet emitted (and never goes positive for foreign
keys); a node is queued or emitted exactly when all its dependents are
emitted; and every emitted node appears after all its dependents. -/
def KahnInv (g : Graph) (q : List Nat) (deg : List (Nat × Int))
    (sorted : List Nat) : Prop :=
  sorted.Nodup ∧ q.Nodup ∧
    (∀ k ∈ sorted, k ∈ Graph.keys g) ∧ (∀ k ∈ q, k ∈ Graph.keys g) ∧
    (∀ k ∈ q, k ∉ sorted) ∧
    (∀ k ∈ Graph.keys g, degGet deg k =
      (((Graph.dependentsOf g k).filter (fun a => decide (a ∉ sorted))).length : Int)) ∧
    (∀ k, k ∉ Graph.keys g → degGet deg k ≤ 0) ∧
    (∀ k ∈ Graph.keys g,
      ((∀ a ∈ Graph.dependentsOf g k, a ∈ sorted) ↔ (k ∈ q ∨ k ∈ sorted))) ∧
    (∀ b ∈ sorted, ∀ a ∈ Graph.dependentsOf g b,
      a ∈ sorted.take (listIdx sorted b))

/-- Depth components of a phase-1 BFS queue. -/
def qDepths (q : List (Nat × Nat)) : List Nat := q.map Prod.snd

/-- Shape invariant of the phase-1 BFS queue: depths are non-decreasing
along the queue and any two queue depths differ by at most one (the queue
always holds at most two consecutive BFS layers). -/
def TwoLevel (q : List (Nat × Nat)) : Prop :=
  List.Pairwise (· ≤ ·) (qDepths q) ∧
    ∀ a ∈ qDepths q, ∀ b ∈ qDepths q, b ≤ a + 1

/-- Reverse-dependency reachability from the target set: the transitive
closure, along dependent edges, of the seed nodes of the analysis. -/
inductive ReachDep (g : Graph) (tids : List Nat) : Nat → Prop
  | seed {k : Nat} : k ∈ seeds g tids → ReachDep g tids k
  | step {x y : Nat} : ReachDep g tids x → y ∈ Graph.dependentsOf g x →
      ReachDep g tids y

/-- Structural well-formedness of a graph value, as maintained by the
`algo` package operations: keys are unique, every dependency edge has its
reciprocal dependent edge (and conversely), edge targets exist in the
graph, and the edge sets are duplicate-free (they embed Go map-sets). -/
def GraphWF (g : Graph) : Prop :=
  (Graph.keys g).Nodup ∧
    ∀ p ∈ g,
      p.2.Dependencies.Nodup ∧ p.2.Dependents.Nodup ∧
        (∀ b ∈ p.2.Dependencies,
          (Graph.find? g b).isSome ∧ p.1 ∈ ((Graph.find? g b).getD Node.empty).Dependents) ∧
        (∀ b ∈ p.2.Dependents,
          (Graph.find? g b).isSome ∧ p.1 ∈ ((Graph.find? g b).getD Node.empty).Dependencies)

instance (g : Graph) : Decidable (GraphWF g) := by
  unfold GraphWF
  infer_instance

/-- Edge-bookkeeping invariant of claim C7: unique keys and reciprocity
of the dependency/dependent edge sets (the nodup and closure conditions
of `GraphWF` are dropped; only the reciprocal-edge bookkeeping is
stated). -/
def EdgeInv (g : Graph) : Prop :=
  (Graph.keys g).Nodup ∧
    ∀ p ∈ g,
      (∀ b ∈ p.2.Dependencies,
        (Graph.find? g b).isSome ∧ p.1 ∈ ((Graph.find? g b).getD Node.empty).Dependents) ∧
      (∀ b ∈ p.2.Dependents,
        (Graph.find? g b).isSome ∧ p.1 ∈ ((Graph.find? g b).getD Node.empty).Dependencies)

instance (g : Graph) : Decidable (EdgeInv g) := by
  unfold EdgeInv
  infer_instance

/-! ### General lemmas on association lists and folds -/

theorem alistFind?_cons {α : Type} (k' : Nat) (v' : α) (l : List (Nat × α)) (k : Nat) :
    alistFind? ((k', v') :: l) k = if k' = k then some v' else alistFind? l k := rfl

theorem alistFind?_append_left {α : Type} {l : List (Nat × α)} (l' : List (Nat × α))
    {k : Nat} {v : α} (h : alistFind? l k = some v) :
    alistFind? (l ++ l') k = some v := by
  induction l with
  | nil => cases h
  | cons p rest ih =>
    rcases p with ⟨k', v'⟩
    rw [alistFind?_cons] at h
    show (if k' = k then some v' else alistFind? (rest ++ l') k) = some v
    by_cases hk : k' = k
    · rw [if_pos hk] at h ⊢
      exact h
    · rw [if_neg hk] at h ⊢
      exact ih h

theorem alistFind?_append_none {α : Type} {l : List (Nat × α)} (l' : List (Nat × α))
    {k : Nat} (h : alistFind? l k = none) :
    alistFind? (l ++ l') k = alistFind? l' k := by
  induction l with
  | nil => rfl
  | cons p rest ih =>
    rcases p with ⟨k', v'⟩
    rw [alistFind?_cons] at h
    show (if k' = k then some v' else alistFind? (rest ++ l') k) = alistFind? l' k
    by_cases hk : k' = k
    · rw [if_pos hk] at h; cases h
    · rw [if_neg hk] at h ⊢
      exact ih h

theorem alistFind?_append_elim {α : Type} {l l' : List (Nat × α)} {k : Nat} {v : α}
    (h : alistFind? (l ++ l') k = some v) :
    alistFind? l k = some v ∨ (alistFind? l k = none ∧ alistFind? l' k = some v) := by
  cases hl : alistFind? l k with
  | none => right; exact ⟨rfl, by rw [alistFind?_append_none l' hl] at h; exact h⟩
  | some v' =>
    left
    rw [alistFind?_append_left l' hl] at h
    rw [← h]

theorem alistFind?_singleton {α : Type} (k k' : Nat) (v : α) :
    alistFind? [(k, v)] k' = if k = k' then some v else none := by
  unfold alistFind? alistFind?
  rfl

theorem alistFind?_mem {α : Type} {l : List (Nat × α)} {k : Nat} {v : α}
    (h : alistFind? l k = some v) : (k, v) ∈ l := by
  induction l with
  | nil => cases h
  | cons p rest ih =>
    unfold alistFind? at h
    rcases p with ⟨k', v'⟩
    by_cases hk : k' = k
    · rw [if_pos hk] at h
      cases h
      subst hk
      exact List.mem_cons_self _ _
    · rw [if_neg hk] at h
      exact List.mem_cons_of_mem _ (ih h)

theorem alistFind?_isSome_iff_mem_keys {α : Type} {l : List (Nat × α)} {k : Nat} :
    (alistFind? l k).isSome ↔ k ∈ l.map Prod.fst := by
  induction l with
  | nil => simp [alistFind?]
  | cons p rest ih =>
    rcases p with ⟨k', v'⟩
    unfold alistFind?
    by_cases hk : k' = k
    · subst hk
      simp
    · rw [if_neg hk]
      simp only [List.map_cons, List.mem_cons]
      rw [ih]
      constructor
      · intro h; right; exact h
      · intro h
        rcases h with h | h
        · exact absurd h.symm hk
        · exact h

theorem alistFind?_eq_none_iff {α : Type} {l : List (Nat × α)} {k : Nat} :
    alistFind? l k = none ↔ k ∉ l.map Prod.fst := by
  rw [← alistFind?_isSome_iff_mem_keys]
  cases alistFind? l k <;> simp

theorem alistFind?_of_mem_nodup {α : Type} {l : List (Nat × α)} {k : Nat} {v : α}
    (hnd : (l.map Prod.fst).Nodup) (h : (k, v) ∈ l) : alistFind? l k = some v := by
  induction l with
  | nil => cases h
  | cons p rest ih =>
    rcases p with ⟨k', v'⟩
    rw [List.map_cons, List.nodup_cons] at hnd
    rcases List.mem_cons.mp h with h | h
    · cases h
      unfold alistFind?
      rw [if_pos rfl]
    · unfold alistFind?
      by_cases hk : k' = k
      · exfalso
        subst hk
        exact hnd.1 (List.mem_map.mpr ⟨(k', v), h, rfl⟩)
      · rw [if_neg hk]
        exact ih hnd.2 h

theorem alistFind?_updKey {α : Type} (m : List (Nat × α)) (k : Nat) (f : α → α)
    (k' : Nat) :
    alistFind? (m.map (fun p => if p.1 = k then (p.1, f p.2) else p)) k' =
      if k = k' then (alistFind? m k').map f else alistFind? m k' := by
  induction m with
  | nil => cases hk : decide (k = k') <;> simp [alistFind?]
  | cons p rest ih =>
    rcases p with ⟨k0, v0⟩
    simp only [List.map_cons]
    by_cases h0 : k0 = k
    · subst h0
      rw [if_pos rfl, alistFind?_cons, alistFind?_cons]
      by_cases h1 : k0 = k'
      · rw [if_pos h1, if_pos h1, if_pos h1]
        rfl
      · simp only [if_neg h1, ih]
    · rw [if_neg h0, alistFind?_cons, alistFind?_cons]
      by_cases h1 : k0 = k'
      · subst h1
        have h2 : ¬ k = k0 := fun h => h0 h.symm
        rw [if_pos rfl, if_pos rfl, if_neg h2]
      · simp only [if_neg h1, ih]

theorem alistFind?_filterKey {α : Type} (m : List (Nat × α)) (k k' : Nat) :
    alistFind? (m.filter (fun p => p.1 ≠ k)) k' =
      if k = k' then none else alistFind? m k' := by
  induction m with
  | nil => cases hk : decide (k = k') <;> simp [alistFind?]
  | cons p rest ih =>
    rcases p with ⟨k0, v0⟩
    by_cases h0 : k0 = k
    · subst h0
      rw [List.filter_cons_of_neg (by simp), ih, alistFind?_cons]
      by_cases h1 : k0 = k'
      · rw [if_pos h1, if_pos h1]
      · simp only [if_neg h1]
    · rw [List.filter_cons_of_pos (by simp [h0]), alistFind?_cons, alistFind?_cons]
      by_cases h1 : k0 = k'
      · subst h1
        have h2 : ¬ k = k0 := fun h => h0 h.symm
        rw [if_pos rfl, if_pos rfl, if_neg h2]
      · simp only [if_neg h1, ih]

theorem foldl_invariant {α β : Type} (f : β → α → β) (P : β → Prop)
    (h : ∀ b a, P b → P (f b a)) :
    ∀ (l : List α) (b : β), P b → P (l.foldl f b) := by
  intro l
  induction l with
  | nil => intro b hb; exact hb
  | cons a rest ih => intro b hb; exact ih (f b a) (h b a hb)

/-! ### Lemmas on `mapAppend` and its folds (phase-1 dependents map) -/

theorem alistFind?_mapAppend (m : List (Nat × List Nat)) (k v : Nat) (k' : Nat) :
    alistFind? (mapAppend m k v) k' =
      if k = k' then some (((alistFind? m k').getD []) ++ [v])
      else alistFind? m k' := by
  unfold mapAppend
  cases hm : alistFind? m k with
  | some l =>
    rw [alistFind?_updKey m k (fun l => l ++ [v]) k']
    by_cases hk : k = k'
    · subst hk
      rw [if_pos rfl, if_pos rfl, hm]
      rfl
    · rw [if_neg hk, if_neg hk]
  | none =>
    by_cases hk : k = k'
    · subst hk
      rw [alistFind?_append_none _ hm, if_pos rfl, hm]
      unfold alistFind? alistFind?
      rw [if_pos rfl]
      rfl
    · rw [if_neg hk]
      cases hm' : alistFind? m k' with
      | some l' => exact alistFind?_append_left _ hm'
      | none =>
        rw [alistFind?_append_none _ hm']
        unfold alistFind? alistFind?
        rw [if_neg hk]

theorem foldAppend_isSome (d : Nat) :
    ∀ (dds : List Nat) (dep : List (Nat × List Nat)) (k : Nat),
      (alistFind? (dds.foldl (fun m dd => mapAppend m dd d) dep) k).isSome ↔
        (alistFind? dep k).isSome ∨ k ∈ dds := by
  intro dds
  induction dds with
  | nil => intro dep k; simp
  | cons dd rest ih =>
    intro dep k
    rw [List.foldl_cons, ih]
    rw [alistFind?_mapAppend]
    by_cases hk : dd = k
    · subst hk
      simp
    · rw [if_neg hk]
      simp only [List.mem_cons]
      constructor
      · intro h
        rcases h with h | h
        · exact Or.inl h
        · exact Or.inr (Or.inr h)
      · intro h
        rcases h with h | h | h
        · exact Or.inl h
        · exact absurd h.symm hk
        · exact Or.inr h

theorem foldAppend_mem (d : Nat) :
    ∀ (dds : List Nat) (dep : List (Nat × List Nat)) (k x : Nat),
      (∃ l, alistFind? (dds.foldl (fun m dd => mapAppend m dd d) dep) k = some l ∧ x ∈ l) ↔
        ((∃ l, alistFind? dep k = some l ∧ x ∈ l) ∨ (x = d ∧ k ∈ dds)) := by
  intro dds
  induction dds with
  | nil => intro dep k x; simp
  | cons dd rest ih =>
    intro dep k x
    rw [List.foldl_cons, ih]
    constructor
    · intro h
      rcases h with ⟨l, hl, hx⟩ | ⟨hx, hk⟩
      · rw [alistFind?_mapAppend] at hl
        by_cases hk : dd = k
        · subst hk
          rw [if_pos rfl] at hl
          cases hl
          rcases List.mem_append.mp hx with hx | hx
          · cases hget : alistFind? dep dd with
            | none => rw [hget] at hx; cases hx
            | some l0 =>
              rw [hget] at hx
              exact Or.inl ⟨l0, rfl, hx⟩
          · rcases List.mem_singleton.mp hx with rfl
            exact Or.inr ⟨rfl, List.mem_cons_self _ _⟩
        · rw [if_neg hk] at hl
          exact Or.inl ⟨l, hl, hx⟩
      · exact Or.inr ⟨hx, List.mem_cons_of_mem _ hk⟩
    · intro h
      rcases h with ⟨l, hl, hx⟩ | ⟨hx, hk⟩
      · left
        rw [alistFind?_mapAppend]
        by_cases hk : dd = k
        · subst hk
          rw [if_pos rfl, hl]
          exact ⟨l ++ [d], rfl, List.mem_append_left _ hx⟩
        · rw [if_neg hk]
          exact ⟨l, hl, hx⟩
      · rcases List.mem_cons.mp hk with rfl | hk
        · left
          rw [alistFind?_mapAppend, if_pos rfl]
          exact ⟨_, rfl, by rw [hx]; exact List.mem_append_right _ (List.mem_singleton.mpr rfl)⟩
        · exact Or.inr ⟨hx, hk⟩

theorem foldAppend_ne_nil (d : Nat) :
    ∀ (dds : List Nat) (dep : List (Nat × List Nat)),
      (∀ k l, alistFind? dep k = some l → l ≠ []) →
      ∀ k l, alistFind? (dds.foldl (fun m dd => mapAppend m dd d) dep) k = some l →
        l ≠ [] := by
  intro dds
  induction dds with
  | nil => intro dep h k l hl; exact h k l hl
  | cons dd rest ih =>
    intro dep h k l hl
    rw [List.foldl_cons] at hl
    refine ih _ ?_ k l hl
    intro k' l' hl'
    rw [alistFind?_mapAppend] at hl'
    by_cases hk : dd = k'
    · rw [if_pos hk] at hl'
      cases hl'
      simp
    · rw [if_neg hk] at hl'
      exact h k' l' hl'

/-! ### Lemmas on the phase-1 BFS loop -/

theorem bfsLoop_zero (g : Graph) (md : Nat) (q : List (Nat × Nat))
    (rel : List (Nat × Nat)) (dep : List (Nat × List Nat)) :
    bfsLoop g md 0 q rel dep = (rel, dep) := rfl

theorem bfsLoop_succ_nil (g : Graph) (md fuel : Nat)
    (rel : List (Nat × Nat)) (dep : List (Nat × List Nat)) :
    bfsLoop g md (fuel + 1) [] rel dep = (rel, dep) := rfl

theorem bfsLoop_succ_cons (g : Graph) (md fuel : Nat) (d depth : Nat)
    (rest rel : List (Nat × Nat)) (dep : List (Nat × List Nat)) :
    bfsLoop g md (fuel + 1) ((d, depth) :: rest) rel dep =
      if md ≤ depth then (rel, dep)
      else if (alistFind? rel d).isSome then bfsLoop g md fuel rest rel dep
      else
        bfsLoop g md fuel
          (rest ++ (Graph.dependentsOf g d).map (fun dd => (dd, depth + 1)))
          (rel ++ [(d, depth)])
          ((Graph.dependentsOf g d).foldl (fun m dd => mapAppend m dd d) dep) := rfl

theorem dependentsOf_of_find?_none {g : Graph} {d : Nat}
    (h : Graph.find? g d = none) : Graph.dependentsOf g d = [] := by
  unfold Graph.dependentsOf
  rw [h]
  rfl

theorem dependentsOf_of_find?_some {g : Graph} {d : Nat} {nd : Node}
    (h : Graph.find? g d = some nd) : Graph.dependentsOf g d = nd.Dependents := by
  unfold Graph.dependentsOf
  rw [h]
  rfl

theorem alistFind?_snoc_self {α : Type} {rel : List (Nat × α)} {d : Nat} (v : α)
    (h : alistFind? rel d = none) : alistFind? (rel ++ [(d, v)]) d = some v := by
  rw [alistFind?_append_none _ h, alistFind?_singleton, if_pos rfl]

theorem sublist_sum_le : ∀ {l₁ l₂ : List Nat}, l₁.Sublist l₂ → l₁.sum ≤ l₂.sum := by
  intro l₁ l₂ h
  induction h with
  | slnil => exact Nat.le_refl _
  | cons a h ih => rw [List.sum_cons]; omega
  | cons₂ a h ih => rw [List.sum_cons, List.sum_cons]; omega

theorem pushBudget_cons (k : Nat) (n : Node) (g : Graph) (rel : List (Nat × Nat)) :
    pushBudget ((k, n) :: g) rel =
      (if (alistFind? rel k).isNone then n.Dependents.length else 0) +
        pushBudget g rel := by
  unfold pushBudget
  by_cases h : (alistFind? rel k).isNone
  · rw [List.filter_cons_of_pos (by simpa using h), if_pos h]
    rfl
  · rw [List.filter_cons_of_neg (by simpa using h), if_neg h]
    omega

theorem pushBudget_mono (g : Graph) (rel l : List (Nat × Nat)) :
    pushBudget g (rel ++ l) ≤ pushBudget g rel := by
  induction g with
  | nil => exact Nat.le_refl _
  | cons p rest ih =>
    rcases p with ⟨k0, n0⟩
    rw [pushBudget_cons, pushBudget_cons]
    have h : (alistFind? (rel ++ l) k0).isNone = true →
        (alistFind? rel k0).isNone = true := by
      intro h1
      cases hr : alistFind? rel k0 with
      | none => rfl
      | some v => rw [alistFind?_append_left l hr] at h1; cases h1
    by_cases h0 : (alistFind? (rel ++ l) k0).isNone
    · rw [if_pos h0, if_pos (h h0)]
      omega
    · rw [if_neg h0]
      by_cases h1 : (alistFind? rel k0).isNone
      · rw [if_pos h1]; omega
      · rw [if_neg h1]; omega

theorem pushBudget_visit {g : Graph} {rel : List (Nat × Nat)} {d : Nat} {nd : Node}
    (hg : Graph.find? g d = some nd) (hrel : alistFind? rel d = none) (v : Nat) :
    pushBudget g (rel ++ [(d, v)]) + nd.Dependents.length ≤ pushBudget g rel := by
  induction g with
  | nil => cases hg
  | cons p rest ih =>
    rcases p with ⟨k0, n0⟩
    rw [pushBudget_cons, pushBudget_cons]
    unfold Graph.find? at hg
    rw [alistFind?_cons] at hg
    by_cases h0 : k0 = d
    · subst h0
      rw [if_pos rfl] at hg
      cases hg
      have hkeep : (alistFind? rel k0).isNone := by rw [hrel]; rfl
      have hdrop : ¬ (alistFind? (rel ++ [(k0, v)]) k0).isNone := by
        rw [alistFind?_snoc_self v hrel]; simp
      rw [if_pos hkeep, if_neg hdrop]
      have := pushBudget_mono rest rel [(k0, v)]
      omega
    · rw [if_neg h0] at hg
      have ih' := ih hg
      have hsame : alistFind? (rel ++ [(d, v)]) k0 = alistFind? rel k0 := by
        cases hr : alistFind? rel k0 with
        | none =>
          rw [alistFind?_append_none _ hr, alistFind?_singleton,
            if_neg (fun h => h0 h.symm)]
        | some w => exact alistFind?_append_left _ hr
      rw [hsame]
      by_cases h1 : (alistFind? rel k0).isNone
      · rw [if_pos h1]; omega
      · rw [if_neg h1]; omega

theorem qDepths_cons (d depth : Nat) (rest : List (Nat × Nat)) :
    qDepths ((d, depth) :: rest) = depth :: qDepths rest := rfl

theorem qDepths_append (q q' : List (Nat × Nat)) :
    qDepths (q ++ q') = qDepths q ++ qDepths q' := List.map_append _ _ _

theorem qDepths_push (dds : List Nat) (c : Nat) :
    qDepths (dds.map (fun dd => (dd, c))) = dds.map (fun _ => c) := by
  unfold qDepths
  rw [List.map_map]
  rfl

theorem mem_map_const {dds : List Nat} {c b : Nat}
    (h : b ∈ dds.map (fun _ => c)) : b = c := by
  rcases List.mem_map.mp h with ⟨x, _, hx⟩
  exact hx.symm

theorem pairwise_le_map_const (dds : List Nat) (c : Nat) :
    List.Pairwise (· ≤ ·) (dds.map (fun _ => c)) := by
  induction dds with
  | nil => exact List.Pairwise.nil
  | cons x rest ih =>
    rw [List.map_cons]
    exact List.Pairwise.cons (fun b hb => by rw [mem_map_const hb]) ih

theorem twoLevel_tail {d depth : Nat} {rest : List (Nat × Nat)}
    (h : TwoLevel ((d, depth) :: rest)) : TwoLevel rest := by
  rcases h with ⟨h1, h2⟩
  rw [qDepths_cons] at h1 h2
  exact ⟨(List.pairwise_cons.mp h1).2,
    fun a ha b hb => h2 a (List.mem_cons_of_mem _ ha) b (List.mem_cons_of_mem _ hb)⟩

theorem twoLevel_ge_head {d depth : Nat} {rest : List (Nat × Nat)}
    (h : TwoLevel ((d, depth) :: rest)) :
    ∀ n b, (n, b) ∈ (d, depth) :: rest → depth ≤ b := by
  rcases h with ⟨h1, _⟩
  rw [qDepths_cons] at h1
  intro n b hb
  rcases List.mem_cons.mp hb with hb | hb
  · cases hb; exact Nat.le_refl _
  · exact (List.pairwise_cons.mp h1).1 b
      (List.mem_map.mpr ⟨(n, b), hb, rfl⟩)

theorem twoLevel_visit {d depth : Nat} {rest : List (Nat × Nat)} (dds : List Nat)
    (h : TwoLevel ((d, depth) :: rest)) :
    TwoLevel (rest ++ dds.map (fun dd => (dd, depth + 1))) := by
  rcases h with ⟨h1, h2⟩
  rw [qDepths_cons] at h1 h2
  have hhead := (List.pairwise_cons.mp h1).1
  have htail := (List.pairwise_cons.mp h1).2
  constructor
  · rw [qDepths_append, qDepths_push]
    rw [List.pairwise_append]
    refine ⟨htail, pairwise_le_map_const dds (depth + 1), ?_⟩
    intro a ha b hb
    rw [mem_map_const hb]
    exact h2 depth (List.mem_cons_self _ _) a (List.mem_cons_of_mem _ ha)
  · rw [qDepths_append, qDepths_push]
    intro a ha b hb
    rcases List.mem_append.mp ha with ha | ha
    · rcases List.mem_append.mp hb with hb | hb
      · exact h2 a (List.mem_cons_of_mem _ ha) b (List.mem_cons_of_mem _ hb)
      · rw [mem_map_const hb]
        have := hhead a ha
        omega
    · rw [mem_map_const ha]
      rcases List.mem_append.mp hb with hb | hb
      · have := h2 depth (List.mem_cons_self _ _) b (List.mem_cons_of_mem _ hb)
        omega
      · rw [mem_map_const hb]
        omega

theorem alistFind?_isSome_append {α : Type} {rel : List (Nat × α)}
    (l : List (Nat × α)) {x : Nat} (h : (alistFind? rel x).isSome) :
    (alistFind? (rel ++ l) x).isSome := by
  rcases Option.isSome_iff_exists.mp h with ⟨v, hv⟩
  rw [alistFind?_append_left l hv]
  rfl

theorem alistFind?_snoc_elim {α : Type} {rel : List (Nat × α)} {d x : Nat}
    {v w : α} (h : alistFind? (rel ++ [(d, v)]) x = some w) :
    alistFind? rel x = some w ∨ (alistFind? rel x = none ∧ x = d ∧ w = v) := by
  rcases alistFind?_append_elim h with h1 | ⟨h1, h2⟩
  · exact Or.inl h1
  · rw [alistFind?_singleton] at h2
    by_cases hd : d = x
    · rw [if_pos hd] at h2
      cases h2
      exact Or.inr ⟨h1, hd.symm, rfl⟩
    · rw [if_neg hd] at h2
      cases h2

theorem alistFind?_isSome_snoc_elim {α : Type} {rel : List (Nat × α)} {d x : Nat}
    {v : α} (h : (alistFind? (rel ++ [(d, v)]) x).isSome) :
    (alistFind? rel x).isSome ∨ x = d := by
  rcases Option.isSome_iff_exists.mp h with ⟨w, hw⟩
  rcases alistFind?_snoc_elim hw with h1 | ⟨_, h2, _⟩
  · exact Or.inl (by rw [h1]; rfl)
  · exact Or.inr h2

theorem bfs_rel_mono (g : Graph) (md : Nat) :
    ∀ (fuel : Nat) (q rel : List (Nat × Nat)) (dep : List (Nat × List Nat))
      (k v : Nat), alistFind? rel k = some v →
      alistFind? (bfsLoop g md fuel q rel dep).1 k = some v := by
  intro fuel
  induction fuel with
  | zero => intro q rel dep k v h; rw [bfsLoop_zero]; exact h
  | succ f ih =>
    intro q rel dep k v h
    cases q with
    | nil => rw [bfsLoop_succ_nil]; exact h
    | cons hd rest =>
      rcases hd with ⟨d, depth⟩
      rw [bfsLoop_succ_cons]
      by_cases h1 : md ≤ depth
      · rw [if_pos h1]; exact h
      · rw [if_neg h1]
        by_cases h2 : (alistFind? rel d).isSome
        · rw [if_pos h2]; exact ih _ _ _ k v h
        · rw [if_neg h2]
          exact ih _ _ _ k v (alistFind?_append_left _ h)

theorem bfs_queue_visited (g : Graph) (md : Nat) :
    ∀ (fuel : Nat) (q rel : List (Nat × Nat)) (dep : List (Nat × List Nat)),
      q.length + pushBudget g rel ≤ fuel → TwoLevel q →
      ∀ n b, (n, b) ∈ q → b < md →
        (alistFind? (bfsLoop g md fuel q rel dep).1 n).isSome := by
  intro fuel
  induction fuel with
  | zero =>
    intro q rel dep hbud _ n b hmem _
    have hq : q.length = 0 := by omega
    rw [List.length_eq_zero] at hq
    subst hq
    cases hmem
  | succ f ih =>
    intro q rel dep hbud htl n b hmem hb
    cases q with
    | nil => cases hmem
    | cons hd rest =>
      rcases hd with ⟨d, depth⟩
      rw [bfsLoop_succ_cons]
      by_cases h1 : md ≤ depth
      · exfalso
        have := twoLevel_ge_head htl n b hmem
        omega
      · rw [if_neg h1]
        have hlen : ((d, depth) :: rest).length = rest.length + 1 := by
          rw [List.length_cons]
        by_cases h2 : (alistFind? rel d).isSome
        · rw [if_pos h2]
          rcases List.mem_cons.mp hmem with heq | hmem'
          · obtain ⟨hn, hbd⟩ : n = d ∧ b = depth := by simpa using heq
            subst hn; subst hbd
            rcases Option.isSome_iff_exists.mp h2 with ⟨v, hv⟩
            exact Option.isSome_iff_exists.mpr
              ⟨v, bfs_rel_mono g md f rest rel dep n v hv⟩
          · exact ih rest rel dep (by omega) (twoLevel_tail htl) n b hmem' hb
        · rw [if_neg h2]
          rcases List.mem_cons.mp hmem with heq | hmem'
          · obtain ⟨hn, hbd⟩ : n = d ∧ b = depth := by simpa using heq
            subst hn; subst hbd
            have hfind : alistFind? (rel ++ [(n, b)]) n = some b :=
              alistFind?_snoc_self b (Option.not_isSome_iff_eq_none.mp h2)
            exact Option.isSome_iff_exists.mpr
              ⟨b, bfs_rel_mono g md f _ _ _ n b hfind⟩
          · refine ih _ _ _ ?_ (twoLevel_visit _ htl) n b
              (List.mem_append_left _ hmem') hb
            cases hgd : Graph.find? g d with
            | some nd =>
              rw [dependentsOf_of_find?_some hgd]
              have h3 := pushBudget_visit hgd
                (Option.not_isSome_iff_eq_none.mp h2) depth
              have h4 : (rest ++ nd.Dependents.map
                  (fun dd => (dd, depth + 1))).length =
                  rest.length + nd.Dependents.length := by
                rw [List.length_append, List.length_map]
              rw [h4]
              omega
            | none =>
              rw [dependentsOf_of_find?_none hgd]
              simp only [List.map_nil, List.append_nil]
              have h5 := pushBudget_mono g rel [(d, depth)]
              omega

theorem bfs_closure (g : Graph) (md : Nat) :
    ∀ (fuel : Nat) (q rel : List (Nat × Nat)) (dep : List (Nat × List Nat)),
      q.length + pushBudget g rel ≤ fuel → TwoLevel q →
      (∀ x δ, alistFind? rel x = some δ → δ + 1 < md →
        ∀ y ∈ Graph.dependentsOf g x,
          (alistFind? rel y).isSome ∨ ∃ b, (y, b) ∈ q ∧ b < md) →
      ∀ x δ, alistFind? (bfsLoop g md fuel q rel dep).1 x = some δ → δ + 1 < md →
        ∀ y ∈ Graph.dependentsOf g x,
          (alistFind? (bfsLoop g md fuel q rel dep).1 y).isSome := by
  intro fuel
  induction fuel with
  | zero =>
    intro q rel dep hbud _ hci x δ hx hlt y hy
    have hq : q.length = 0 := by omega
    rw [List.length_eq_zero] at hq
    subst hq
    rw [bfsLoop_zero] at hx ⊢
    rcases hci x δ hx hlt y hy with h | ⟨b, hbq, _⟩
    · exact h
    · cases hbq
  | succ f ih =>
    intro q rel dep hbud htl hci x δ hx hlt y hy
    cases q with
    | nil =>
      rw [bfsLoop_succ_nil] at hx ⊢
      rcases hci x δ hx hlt y hy with h | ⟨b, hbq, _⟩
      · exact h
      · cases hbq
    | cons hd rest =>
      rcases hd with ⟨d, depth⟩
      rw [bfsLoop_succ_cons] at hx ⊢
      by_cases h1 : md ≤ depth
      · rw [if_pos h1] at hx ⊢
        rcases hci x δ hx hlt y hy with h | ⟨b, hbq, hblt⟩
        · exact h
        · exfalso
          have := twoLevel_ge_head htl y b hbq
          omega
      · rw [if_neg h1] at hx ⊢
        have hlen : ((d, depth) :: rest).length = rest.length + 1 := by
          rw [List.length_cons]
        by_cases h2 : (alistFind? rel d).isSome
        · rw [if_pos h2] at hx ⊢
          refine ih rest rel dep (by omega) (twoLevel_tail htl) ?_ x δ hx hlt y hy
          intro x' δ' hx' hlt' y' hy'
          rcases hci x' δ' hx' hlt' y' hy' with h | ⟨b, hbq, hblt⟩
          · exact Or.inl h
          · rcases List.mem_cons.mp hbq with heq | hmem'
            · obtain ⟨hn, _⟩ : y' = d ∧ b = depth := by simpa using heq
              subst hn
              exact Or.inl h2
            · exact Or.inr ⟨b, hmem', hblt⟩
        · rw [if_neg h2] at hx ⊢
          have hbud' : (rest ++ (Graph.dependentsOf g d).map
              (fun dd => (dd, depth + 1))).length +
              pushBudget g (rel ++ [(d, depth)]) ≤ f := by
            cases hgd : Graph.find? g d with
            | some nd =>
              rw [dependentsOf_of_find?_some hgd]
              have h3 := pushBudget_visit hgd
                (Option.not_isSome_iff_eq_none.mp h2) depth
              have h4 : (rest ++ nd.Dependents.map
                  (fun dd => (dd, depth + 1))).length =
                  rest.length + nd.Dependents.length := by
                rw [List.length_append, List.length_map]
              rw [h4]
              omega
            | none =>
              rw [dependentsOf_of_find?_none hgd]
              simp only [List.map_nil, List.append_nil]
              have h5 := pushBudget_mono g rel [(d, depth)]
              omega
          refine ih _ _ _ hbud' (twoLevel_visit _ htl) ?_ x δ hx hlt y hy
          intro x' δ' hx' hlt' y' hy'
          rcases alistFind?_snoc_elim hx' with hold | ⟨hnone, hxd, hδd⟩
          · rcases hci x' δ' hold hlt' y' hy' with h | ⟨b, hbq, hblt⟩
            · exact Or.inl (alistFind?_isSome_append _ h)
            · rcases List.mem_cons.mp hbq with heq | hmem'
              · obtain ⟨hn, hbd⟩ : y' = d ∧ b = depth := by simpa using heq
                subst hn
                exact Or.inl (by
                  rw [alistFind?_snoc_self depth
                    (Option.not_isSome_iff_eq_none.mp h2)]
                  rfl)
              · exact Or.inr ⟨b, List.mem_append_left _ hmem', hblt⟩
          · subst hxd
            subst hδd
            refine Or.inr ⟨δ' + 1, List.mem_append_right _ ?_, hlt'⟩
            exact List.mem_map.mpr ⟨y', hy', rfl⟩

theorem bfs_depmap (g : Graph) (md : Nat) :
    ∀ (fuel : Nat) (q rel : List (Nat × Nat)) (dep : List (Nat × List Nat)),
      (∀ k l, alistFind? dep k = some l → l ≠ []) →
      (∀ k l, alistFind? dep k = some l → ∀ x ∈ l,
        (alistFind? rel x).isSome ∧ k ∈ Graph.dependentsOf g x) →
      (∀ x, (alistFind? rel x).isSome → ∀ k ∈ Graph.dependentsOf g x,
        ∃ l, alistFind? dep k = some l ∧ x ∈ l) →
      (∀ k l, alistFind? (bfsLoop g md fuel q rel dep).2 k = some l → l ≠ []) ∧
        (∀ k l, alistFind? (bfsLoop g md fuel q rel dep).2 k = some l → ∀ x ∈ l,
          (alistFind? (bfsLoop g md fuel q rel dep).1 x).isSome ∧
            k ∈ Graph.dependentsOf g x) ∧
        (∀ x, (alistFind? (bfsLoop g md fuel q rel dep).1 x).isSome →
          ∀ k ∈ Graph.dependentsOf g x,
            ∃ l, alistFind? (bfsLoop g md fuel q rel dep).2 k = some l ∧ x ∈ l) := by
  intro fuel
  induction fuel with
  | zero => intro q rel dep h0 h1 h2; rw [bfsLoop_zero]; exact ⟨h0, h1, h2⟩
  | succ f ih =>
    intro q rel dep h0 h1 h2
    cases q with
    | nil => rw [bfsLoop_succ_nil]; exact ⟨h0, h1, h2⟩
    | cons hd rest =>
      rcases hd with ⟨d, depth⟩
      rw [bfsLoop_succ_cons]
      by_cases hb1 : md ≤ depth
      · rw [if_pos hb1]; exact ⟨h0, h1, h2⟩
      · rw [if_neg hb1]
        by_cases hb2 : (alistFind? rel d).isSome
        · rw [if_pos hb2]; exact ih rest rel dep h0 h1 h2
        · rw [if_neg hb2]
          have hdn := Option.not_isSome_iff_eq_none.mp hb2
          refine ih _ _ _ ?_ ?_ ?_
          · exact foldAppend_ne_nil d _ dep h0
          · intro k l hl x hx
            have hmem := (foldAppend_mem d (Graph.dependentsOf g d) dep k x).mp
              ⟨l, hl, hx⟩
            rcases hmem with ⟨l0, hl0, hx0⟩ | ⟨hxd, hk⟩
            · rcases h1 k l0 hl0 x hx0 with ⟨hs, hk0⟩
              exact ⟨alistFind?_isSome_append _ hs, hk0⟩
            · subst hxd
              refine ⟨?_, hk⟩
              rw [alistFind?_snoc_self depth hdn]
              rfl
          · intro x hx k hk
            rcases alistFind?_isSome_snoc_elim hx with hold | hxd
            · rcases h2 x hold k hk with ⟨l, hl, hxl⟩
              exact (foldAppend_mem d (Graph.dependentsOf g d) dep k x).mpr
                (Or.inl ⟨l, hl, hxl⟩)
            · subst hxd
              exact (foldAppend_mem x (Graph.dependentsOf g x) dep k x).mpr
                (Or.inr ⟨rfl, hk⟩)

theorem bfs_depth0 (g : Graph) (md : Nat) (S : List Nat) :
    ∀ (fuel : Nat) (q rel : List (Nat × Nat)) (dep : List (Nat × List Nat)),
      (∀ n, (n, 0) ∈ q → n ∈ S) →
      (∀ k, alistFind? rel k = some 0 → k ∈ S) →
      ∀ k, alistFind? (bfsLoop g md fuel q rel dep).1 k = some 0 → k ∈ S := by
  intro fuel
  induction fuel with
  | zero => intro q rel dep _ h2 k hk; rw [bfsLoop_zero] at hk; exact h2 k hk
  | succ f ih =>
    intro q rel dep hq hrel k hk
    cases q with
    | nil => rw [bfsLoop_succ_nil] at hk; exact hrel k hk
    | cons hd rest =>
      rcases hd with ⟨d, depth⟩
      rw [bfsLoop_succ_cons] at hk
      by_cases hb1 : md ≤ depth
      · rw [if_pos hb1] at hk; exact hrel k hk
      · rw [if_neg hb1] at hk
        by_cases hb2 : (alistFind? rel d).isSome
        · rw [if_pos hb2] at hk
          exact ih rest rel dep (fun n hn => hq n (List.mem_cons_of_mem _ hn))
            hrel k hk
        · rw [if_neg hb2] at hk
          refine ih _ _ _ ?_ ?_ k hk
          · intro n hn
            rcases List.mem_append.mp hn with hn | hn
            · exact hq n (List.mem_cons_of_mem _ hn)
            · exfalso
              rcases List.mem_map.mp hn with ⟨x, _, hx⟩
              have : depth + 1 = 0 := congrArg Prod.snd hx
              omega
          · intro k' hk'
            rcases alistFind?_snoc_elim hk' with hold | ⟨_, hkd, hdep⟩
            · exact hrel k' hold
            · subst hkd
              refine hq k' ?_
              rw [← hdep]
              exact List.mem_cons_self _ _

theorem bfs_rel_lt (g : Graph) (md : Nat) :
    ∀ (fuel : Nat) (q rel : List (Nat × Nat)) (dep : List (Nat × List Nat)),
      (∀ k δ, alistFind? rel k = some δ → δ < md) →
      ∀ k δ, alistFind? (bfsLoop g md fuel q rel dep).1 k = some δ → δ < md := by
  intro fuel
  induction fuel with
  | zero => intro q rel dep h k δ hk; rw [bfsLoop_zero] at hk; exact h k δ hk
  | succ f ih =>
    intro q rel dep h k δ hk
    cases q with
    | nil => rw [bfsLoop_succ_nil] at hk; exact h k δ hk
    | cons hd rest =>
      rcases hd with ⟨d, depth⟩
      rw [bfsLoop_succ_cons] at hk
      by_cases hb1 : md ≤ depth
      · rw [if_pos hb1] at hk; exact h k δ hk
      · rw [if_neg hb1] at hk
        by_cases hb2 : (alistFind? rel d).isSome
        · rw [if_pos hb2] at hk; exact ih rest rel dep h k δ hk
        · rw [if_neg hb2] at hk
          refine ih _ _ _ ?_ k δ hk
          intro k' δ' hk'
          rcases alistFind?_snoc_elim hk' with hold | ⟨_, _, hdep⟩
          · exact h k' δ' hold
          · subst hdep; omega

theorem bfs_rel_length (g : Graph) (md : Nat) :
    ∀ (fuel : Nat) (q rel : List (Nat × Nat)) (dep : List (Nat × List Nat)),
      (bfsLoop g md fuel q rel dep).1.length ≤ rel.length + fuel := by
  intro fuel
  induction fuel with
  | zero =>
    intro q rel dep
    rw [bfsLoop_zero]
    exact Nat.le_of_eq rfl
  | succ f ih =>
    intro q rel dep
    cases q with
    | nil =>
      rw [bfsLoop_succ_nil]
      show rel.length ≤ rel.length + (f + 1)
      omega
    | cons hd rest =>
      rcases hd with ⟨d, depth⟩
      rw [bfsLoop_succ_cons]
      by_cases hb1 : md ≤ depth
      · rw [if_pos hb1]
        show rel.length ≤ rel.length + (f + 1)
        omega
      · rw [if_neg hb1]
        by_cases hb2 : (alistFind? rel d).isSome
        · rw [if_pos hb2]
          have := ih rest rel dep
          omega
        · rw [if_neg hb2]
          have := ih (rest ++ (Graph.dependentsOf g d).map (fun dd => (dd, depth + 1)))
            (rel ++ [(d, depth)])
            ((Graph.dependentsOf g d).foldl (fun m dd => mapAppend m dd d) dep)
          rw [List.length_append] at this
          simp only [List.length_cons, List.length_nil] at this
          omega

theorem bfs_depth_le (g : Graph) (md : Nat) :
    ∀ (fuel : Nat) (q rel : List (Nat × Nat)) (dep : List (Nat × List Nat)),
      (∀ k δ, alistFind? rel k = some δ → δ < rel.length) →
      (∀ n b, (n, b) ∈ q → b ≤ rel.length) →
      ∀ k δ, alistFind? (bfsLoop g md fuel q rel dep).1 k = some δ →
        δ < (bfsLoop g md fuel q rel dep).1.length := by
  intro fuel
  induction fuel with
  | zero => intro q rel dep h1 _ k δ hk; rw [bfsLoop_zero] at hk ⊢; exact h1 k δ hk
  | succ f ih =>
    intro q rel dep h1 h2 k δ hk
    cases q with
    | nil => rw [bfsLoop_succ_nil] at hk ⊢; exact h1 k δ hk
    | cons hd rest =>
      rcases hd with ⟨d, depth⟩
      rw [bfsLoop_succ_cons] at hk ⊢
      by_cases hb1 : md ≤ depth
      · rw [if_pos hb1] at hk ⊢; exact h1 k δ hk
      · rw [if_neg hb1] at hk ⊢
        by_cases hb2 : (alistFind? rel d).isSome
        · rw [if_pos hb2] at hk ⊢
          exact ih rest rel dep h1
            (fun n b hn => h2 n b (List.mem_cons_of_mem _ hn)) k δ hk
        · rw [if_neg hb2] at hk ⊢
          have hdlen : depth ≤ rel.length := h2 d depth (List.mem_cons_self _ _)
          refine ih _ _ _ ?_ ?_ k δ hk
          · intro k' δ' hk'
            rw [List.length_append]
            rcases alistFind?_snoc_elim hk' with hold | ⟨_, _, hdep⟩
            · have := h1 k' δ' hold
              simp only [List.length_singleton]
              omega
            · subst hdep
              simp only [List.length_singleton]
              omega
          · intro n b hn
            rw [List.length_append]
            simp only [List.length_singleton]
            rcases List.mem_append.mp hn with hn | hn
            · have := h2 n b (List.mem_cons_of_mem _ hn)
              omega
            · rcases List.mem_map.mp hn with ⟨x, _, hx⟩
              have : b = depth + 1 := (congrArg Prod.snd hx).symm
              omega

theorem bfs_rel_pred (g : Graph) (md : Nat) (P : Nat → Prop)
    (hstep : ∀ x y, P x → y ∈ Graph.dependentsOf g x → P y) :
    ∀ (fuel : Nat) (q rel : List (Nat × Nat)) (dep : List (Nat × List Nat)),
      (∀ n b, (n, b) ∈ q → P n) →
      (∀ k δ, alistFind? rel k = some δ → P k) →
      ∀ k δ, alistFind? (bfsLoop g md fuel q rel dep).1 k = some δ → P k := by
  intro fuel
  induction fuel with
  | zero => intro q rel dep _ h2 k δ hk; rw [bfsLoop_zero] at hk; exact h2 k δ hk
  | succ f ih =>
    intro q rel dep hq hrel k δ hk
    cases q with
    | nil => rw [bfsLoop_succ_nil] at hk; exact hrel k δ hk
    | cons hd rest =>
      rcases hd with ⟨d, depth⟩
      rw [bfsLoop_succ_cons] at hk
      by_cases hb1 : md ≤ depth
      · rw [if_pos hb1] at hk; exact hrel k δ hk
      · rw [if_neg hb1] at hk
        by_cases hb2 : (alistFind? rel d).isSome
        · rw [if_pos hb2] at hk
          exact ih rest rel dep
            (fun n b hn => hq n b (List.mem_cons_of_mem _ hn)) hrel k δ hk
        · rw [if_neg hb2] at hk
          have hpd : P d := hq d depth (List.mem_cons_self _ _)
          refine ih _ _ _ ?_ ?_ k δ hk
          · intro n b hn
            rcases List.mem_append.mp hn with hn | hn
            · exact hq n b (List.mem_cons_of_mem _ hn)
            · rcases List.mem_map.mp hn with ⟨x, hx, he⟩
              have hxn : x = n := congrArg Prod.fst he
              subst hxn
              exact hstep d x hpd hx
          · intro k' δ' hk'
            rcases alistFind?_snoc_elim hk' with hold | ⟨_, hkd, _⟩
            · exact hrel k' δ' hold
            · subst hkd
              exact hpd

/-! ### Phase-1 corollaries -/

theorem pushBudget_nil_rel (g : Graph) : pushBudget g [] = totalDependents g := by
  unfold pushBudget totalDependents
  have : g.filter (fun p => (alistFind? ([] : List (Nat × Nat)) p.1).isNone) = g := by
    apply List.filter_eq_self.mpr
    intro p _
    rfl
  rw [this]

theorem seeds_length_le (g : Graph) (tids : List Nat) :
    (seeds g tids).length ≤ g.length := by
  unfold seeds
  calc ((Graph.keys g).filter (fun k => decide (k ∈ tids))).length
      ≤ (Graph.keys g).length := List.length_filter_le _ _
    _ = g.length := List.length_map _ _

theorem phase1_fuel_ok (g : Graph) (tids : List Nat) :
    ((seeds g tids).map (fun k => (k, 0))).length + pushBudget g [] ≤
      g.length + totalDependents g + 1 := by
  rw [List.length_map, pushBudget_nil_rel]
  have := seeds_length_le g tids
  omega

theorem twoLevel_seeds (s : List Nat) :
    TwoLevel (s.map (fun k => (k, 0))) := by
  constructor
  · rw [qDepths_push]
    exact pairwise_le_map_const s 0
  · rw [qDepths_push]
    intro a ha b hb
    rw [mem_map_const hb]
    omega

theorem phase1_rel_eq (g : Graph) (tids : List Nat) (md : Nat) :
    (phase1 g tids md).rel =
      (bfsLoop g md (g.length + totalDependents g + 1)
        ((seeds g tids).map (fun k => (k, 0))) [] []).1 := rfl

theorem phase1_dependents_eq (g : Graph) (tids : List Nat) (md : Nat) :
    (phase1 g tids md).dependents =
      (bfsLoop g md (g.length + totalDependents g + 1)
        ((seeds g tids).map (fun k => (k, 0))) [] []).2 := rfl

theorem phase1_targets_eq (g : Graph) (tids : List Nat) (md : Nat) :
    (phase1 g tids md).targets = seeds g tids := rfl

theorem phase1_seed_visited (g : Graph) (tids : List Nat) (md : Nat)
    (hmd : 1 ≤ md) :
    ∀ k ∈ seeds g tids, (alistFind? (phase1 g tids md).rel k).isSome := by
  intro k hk
  rw [phase1_rel_eq]
  exact bfs_queue_visited g md _ _ [] [] (phase1_fuel_ok g tids)
    (twoLevel_seeds _) k 0 (List.mem_map.mpr ⟨k, hk, rfl⟩) (by omega)

theorem phase1_rel_lt (g : Graph) (tids : List Nat) (md : Nat) :
    ∀ k δ, alistFind? (phase1 g tids md).rel k = some δ → δ < md := by
  intro k δ h
  rw [phase1_rel_eq] at h
  exact bfs_rel_lt g md _ _ [] [] (fun k' δ' h' => by cases h') k δ h

theorem phase1_closure (g : Graph) (tids : List Nat) (md : Nat) :
    ∀ x δ, alistFind? (phase1 g tids md).rel x = some δ → δ + 1 < md →
      ∀ y ∈ Graph.dependentsOf g x,
        (alistFind? (phase1 g tids md).rel y).isSome := by
  intro x δ hx hlt y hy
  rw [phase1_rel_eq] at hx ⊢
  exact bfs_closure g md _ _ [] [] (phase1_fuel_ok g tids) (twoLevel_seeds _)
    (fun x' δ' h' => by cases h') x δ hx hlt y hy

theorem phase1_depth0 (g : Graph) (tids : List Nat) (md : Nat) :
    ∀ k, alistFind? (phase1 g tids md).rel k = some 0 → k ∈ seeds g tids := by
  intro k hk
  rw [phase1_rel_eq] at hk
  refine bfs_depth0 g md (seeds g tids) _ _ [] [] ?_ (fun k' h' => by cases h') k hk
  intro n hn
  rcases List.mem_map.mp hn with ⟨x, hx, he⟩
  have hxn : x = n := congrArg Prod.fst he
  subst hxn
  exact hx

theorem phase1_depmap (g : Graph) (tids : List Nat) (md : Nat) :
    (∀ k l, alistFind? (phase1 g tids md).dependents k = some l → l ≠ []) ∧
      (∀ k l, alistFind? (phase1 g tids md).dependents k = some l → ∀ x ∈ l,
        (alistFind? (phase1 g tids md).rel x).isSome ∧
          k ∈ Graph.dependentsOf g x) ∧
      (∀ x, (alistFind? (phase1 g tids md).rel x).isSome →
        ∀ k ∈ Graph.dependentsOf g x,
          ∃ l, alistFind? (phase1 g tids md).dependents k = some l ∧ x ∈ l) := by
  rw [phase1_rel_eq, phase1_dependents_eq]
  exact bfs_depmap g md _ _ [] []
    (fun k l h => by cases h)
    (fun k l h => by cases h)
    (fun x h => by cases h)

theorem phase1_rel_pred (g : Graph) (tids : List Nat) (md : Nat) (P : Nat → Prop)
    (hstep : ∀ x y, P x → y ∈ Graph.dependentsOf g x → P y)
    (hseed : ∀ k ∈ seeds g tids, P k) :
    ∀ k δ, alistFind? (phase1 g tids md).rel k = some δ → P k := by
  intro k δ hk
  rw [phase1_rel_eq] at hk
  refine bfs_rel_pred g md P hstep _ _ [] [] ?_ (fun k' δ' h' => by cases h') k δ hk
  intro n b hn
  rcases List.mem_map.mp hn with ⟨x, hx, he⟩
  have hxn : x = n := congrArg Prod.fst he
  subst hxn
  exact hseed x hx

theorem phase1_depth_bound (g : Graph) (tids : List Nat) (md : Nat) :
    ∀ k δ, alistFind? (phase1 g tids md).rel k = some δ →
      δ < g.length + totalDependents g + 1 := by
  intro k δ hk
  rw [phase1_rel_eq] at hk
  have h1 := bfs_depth_le g md (g.length + totalDependents g + 1)
    ((seeds g tids).map (fun k => (k, 0))) [] []
    (fun k' δ' h' => by cases h')
    (by
      intro n b hn
      rcases List.mem_map.mp hn with ⟨x, _, he⟩
      have : b = 0 := (congrArg Prod.snd he).symm
      omega)
    k δ hk
  have h2 := bfs_rel_length g md (g.length + totalDependents g + 1)
    ((seeds g tids).map (fun k => (k, 0))) [] []
  simp only [List.length_nil] at h2
  omega

/-! ### Lemmas on phases 2 and 3 -/

theorem alistFind?_mapSet (m : List (Nat × List Nat)) (k : Nat) (l : List Nat)
    (k' : Nat) :
    alistFind? (mapSet m k l) k' = if k = k' then some l else alistFind? m k' := by
  unfold mapSet
  cases hm : alistFind? m k with
  | some l0 =>
    rw [alistFind?_updKey m k (fun _ => l) k']
    by_cases hk : k = k'
    · subst hk
      rw [if_pos rfl, if_pos rfl, hm]
      rfl
    · rw [if_neg hk, if_neg hk]
  | none =>
    by_cases hk : k = k'
    · subst hk
      rw [if_pos rfl, alistFind?_append_none _ hm, alistFind?_singleton, if_pos rfl]
    · rw [if_neg hk]
      cases hm' : alistFind? m k' with
      | some l' => exact alistFind?_append_left _ hm'
      | none =>
        rw [alistFind?_append_none _ hm', alistFind?_singleton, if_neg hk]

theorem phase2Step_eq_none {g : Graph} {m : Nat} (md : Nat) (st : Phase2St)
    (hg : Graph.find? g m = none) : phase2Step g md st m = st := by
  unfold phase2Step
  rw [hg]

theorem phase2Step_eq_some {g : Graph} {m : Nat} {node : Node} (md : Nat)
    (st : Phase2St) (hg : Graph.find? g m = some node) :
    phase2Step g md st m =
      if node.Dependents.isEmpty then st
      else if (alistFind? st.rel m).isSome then st
      else
        match checkDependents st.rel md node.Dependents [] 0 with
        | none => st
        | some pm => ⟨st.rel ++ [(m, pm.2)], mapSet st.dependencies m pm.1⟩ := by
  unfold phase2Step
  rw [hg]

theorem phase2Step_inv (g : Graph) (md : Nat) (T : List Nat) (st : Phase2St)
    (m : Nat) (h : P2Inv T st) : P2Inv T (phase2Step g md st m) := by
  rcases h with ⟨h1, h2, h3⟩
  cases hg : Graph.find? g m with
  | none => rw [phase2Step_eq_none md st hg]; exact ⟨h1, h2, h3⟩
  | some node =>
    rw [phase2Step_eq_some md st hg]
    by_cases hro : node.Dependents.isEmpty
    · rw [if_pos hro]
      exact ⟨h1, h2, h3⟩
    · rw [if_neg hro]
      by_cases hvis : (alistFind? st.rel m).isSome
      · rw [if_pos hvis]
        exact ⟨h1, h2, h3⟩
      · rw [if_neg hvis]
        cases hchk : checkDependents st.rel md node.Dependents [] 0 with
        | none => exact ⟨h1, h2, h3⟩
        | some pm =>
          refine ⟨?_, ?_, ?_⟩
          · intro t ht
            exact alistFind?_isSome_append _ (h1 t ht)
          · intro t ht
            rw [alistFind?_mapSet]
            have hmt : ¬ m = t := by
              intro he
              subst he
              exact hvis (h1 m ht)
            rw [if_neg hmt]
            exact h2 t ht
          · intro k hk
            rw [alistFind?_mapSet] at hk
            by_cases hmk : m = k
            · subst hmk
              have := alistFind?_snoc_self pm.2
                (Option.not_isSome_iff_eq_none.mp hvis)
              rw [this]
              rfl
            · rw [if_neg hmk] at hk
              exact alistFind?_isSome_append _ (h3 k hk)

theorem phase2_inv (g : Graph) (md : Nat) (T : List Nat)
    (rel : List (Nat × Nat))
    (h1 : ∀ t ∈ T, (alistFind? rel t).isSome) :
    P2Inv T (phase2 g md rel) := by
  unfold phase2
  refine foldl_invariant (phase2Step g md) (P2Inv T)
    (fun st m h => phase2Step_inv g md T st m h) _ _ ?_
  exact ⟨h1, fun t _ => rfl, fun k hk => by cases hk⟩

theorem phase3Opt_eq_none {p : Phase3St × List Nat} {o : Nat} (md : Nat)
    (h : alistFind? p.1.rel o = none) : phase3Opt md p o = p := by
  unfold phase3Opt
  rw [h]

theorem phase3Opt_eq_some {p : Phase3St × List Nat} {o depth : Nat} (md : Nat)
    (h : alistFind? p.1.rel o = some depth) :
    phase3Opt md p o =
      if md ≤ depth then p
      else if (alistFind? p.1.dependencies o).isSome then
        (⟨relDelete p.1.rel o, mapDelete p.1.dependencies o, p.1.optionals⟩, p.2)
      else (p.1, p.2 ++ [o]) := by
  unfold phase3Opt
  rw [h]

theorem phase3Opt_inv (md : Nat) (T : List Nat) (st0 : Phase3St)
    (p : Phase3St × List Nat) (o : Nat) (h : P3OptInv T st0 p) :
    P3OptInv T st0 (phase3Opt md p o) := by
  rcases h with ⟨h1, h2, h3, h4, h5, h6, h7⟩
  cases hrel : alistFind? p.1.rel o with
  | none => rw [phase3Opt_eq_none md hrel]; exact ⟨h1, h2, h3, h4, h5, h6, h7⟩
  | some depth =>
    rw [phase3Opt_eq_some md hrel]
    by_cases hmd : md ≤ depth
    · rw [if_pos hmd]
      exact ⟨h1, h2, h3, h4, h5, h6, h7⟩
    · rw [if_neg hmd]
      by_cases hdep : (alistFind? p.1.dependencies o).isSome
      · rw [if_pos hdep]
        refine ⟨?_, ?_, ?_, ?_, h5, ?_, ?_⟩
        · intro t ht
          unfold relDelete
          rw [alistFind?_filterKey]
          have hot : ¬ o = t := by
            intro he
            subst he
            rw [h2 o ht] at hdep
            simp at hdep
          rw [if_neg hot]
          exact h1 t ht
        · intro t ht
          unfold mapDelete
          rw [alistFind?_filterKey]
          by_cases hot : o = t
          · rw [if_pos hot]
          · rw [if_neg hot]
            exact h2 t ht
        · intro k hk
          unfold mapDelete at hk
          rw [alistFind?_filterKey] at hk
          unfold relDelete
          rw [alistFind?_filterKey]
          by_cases hok : o = k
          · rw [if_pos hok] at hk
            cases hk
          · rw [if_neg hok] at hk ⊢
            exact h3 k hk
        · intro o1 ho1
          unfold mapDelete
          rw [alistFind?_filterKey]
          by_cases hoo : o = o1
          · rw [if_pos hoo]
          · rw [if_neg hoo]
            exact h4 o1 ho1
        · intro k hk
          unfold mapDelete
          rw [alistFind?_filterKey]
          by_cases hok : o = k
          · rw [if_pos hok]
          · rw [if_neg hok]
            exact h6 k hk
        · intro k hk
          unfold relDelete
          rw [alistFind?_filterKey]
          by_cases hok : o = k
          · rw [if_pos hok]
          · rw [if_neg hok]
            exact h7 k hk
      · rw [if_neg hdep]
        refine ⟨h1, h2, h3, ?_, h5, h6, h7⟩
        intro o1 ho1
        rcases List.mem_append.mp ho1 with ho1 | ho1
        · exact h4 o1 ho1
        · rw [List.mem_singleton.mp ho1]
          exact Option.not_isSome_iff_eq_none.mp hdep

theorem phase3Node_post (T : List Nat) (st : Phase3St) (m : Nat)
    (hvis : ¬ (alistFind? st.rel m).isSome)
    (h : P3Inv T st) (st1 : Phase3St) (opts : List Nat)
    (hfold : P3OptInv T st (st1, opts)) :
    P3Inv T
      (if opts.isEmpty then st1
       else ⟨st1.rel, st1.dependencies, st1.optionals ++ [(m, opts)]⟩) := by
  rcases h with ⟨h1, h2, h3, h4, h5, h6⟩
  rcases hfold with ⟨g1, g2, g3, g4, g5, g6, g7⟩
  by_cases hempty : opts.isEmpty
  · rw [if_pos hempty]
    refine ⟨g1, g2, g3, ?_, ?_, ?_⟩
    · intro t ht
      show alistFind? st1.optionals t = none
      rw [g5]
      exact h4 t ht
    · intro k hk
      rw [show st1.optionals = st.optionals from g5] at hk
      exact g6 k (h5 k hk)
    · intro k l hl o ho
      rw [show st1.optionals = st.optionals from g5] at hl
      exact g6 o (h6 k l hl o ho)
  · rw [if_neg hempty]
    refine ⟨g1, g2, g3, ?_, ?_, ?_⟩
    · intro t ht
      show alistFind? (st1.optionals ++ [(m, opts)]) t = none
      rw [g5]
      rw [alistFind?_append_none _ (h4 t ht), alistFind?_singleton]
      have hmt : ¬ m = t := by
        intro he
        subst he
        exact hvis (h1 m ht)
      rw [if_neg hmt]
    · intro k hk
      have hk2 : (alistFind? (st.optionals ++ [(m, opts)]) k).isSome := by
        rw [← g5]
        exact hk
      rcases alistFind?_isSome_snoc_elim hk2 with hold | hkm
      · exact g6 k (h5 k hold)
      · subst hkm
        have hrelk : alistFind? st1.rel k = none :=
          g7 k (Option.not_isSome_iff_eq_none.mp hvis)
        cases hd : alistFind? st1.dependencies k with
        | none => rfl
        | some l =>
          exfalso
          have := g3 k (by rw [hd]; rfl)
          rw [hrelk] at this
          cases this
    · intro k l hl o ho
      have hl2 : alistFind? (st.optionals ++ [(m, opts)]) k = some l := by
        rw [← g5]
        exact hl
      rcases alistFind?_snoc_elim hl2 with hold | ⟨hno, hkm, hlp⟩
      · exact g6 o (h6 k l hold o ho)
      · subst hlp
        exact g4 o ho

theorem phase3Node_inv (g : Graph) (md : Nat) (T : List Nat) (st : Phase3St)
    (m : Nat) (h : P3Inv T st) : P3Inv T (phase3Node g md st m) := by
  unfold phase3Node
  by_cases hvis : (alistFind? st.rel m).isSome
  · rw [if_pos hvis]
    exact h
  · rw [if_neg hvis]
    dsimp only
    have hfold := foldl_invariant (phase3Opt md) (P3OptInv T st)
      (fun p o hp => phase3Opt_inv md T st p o hp)
      ((Graph.find? g m).getD Node.empty).Optionals (st, [])
      ⟨h.1, h.2.1, h.2.2.1, fun o ho => absurd ho (List.not_mem_nil o),
        rfl, fun k hk => hk, fun k hk => hk⟩
    rcases hq : ((Graph.find? g m).getD Node.empty).Optionals.foldl
      (phase3Opt md) (st, []) with ⟨st1, opts⟩
    rw [hq] at hfold
    exact phase3Node_post T st m hvis h st1 opts hfold

theorem phase3_inv (g : Graph) (md : Nat) (T : List Nat) (st : Phase3St)
    (h : P3Inv T st) : P3Inv T (phase3 g md st) := by
  unfold phase3
  exact foldl_invariant (phase3Node g md) (P3Inv T)
    (fun st1 m h1 => phase3Node_inv g md T st1 m h1) _ _ h

/-! ### Degenerate depth bound 0 -/

theorem bfsLoop_zero_md (g : Graph) :
    ∀ (fuel : Nat) (q rel : List (Nat × Nat)) (dep : List (Nat × List Nat)),
      bfsLoop g 0 fuel q rel dep = (rel, dep) := by
  intro fuel q rel dep
  cases fuel with
  | zero => rw [bfsLoop_zero]
  | succ f =>
    cases q with
    | nil => rw [bfsLoop_succ_nil]
    | cons hd rest =>
      rcases hd with ⟨d, depth⟩
      rw [bfsLoop_succ_cons, if_pos (Nat.zero_le depth)]

theorem phase1_rel_zero_md (g : Graph) (tids : List Nat) :
    (phase1 g tids 0).rel = [] := by
  rw [phase1_rel_eq, bfsLoop_zero_md]

theorem phase2_rel_nil (g : Graph) (md : Nat) : phase2 g md [] = ⟨[], []⟩ := by
  unfold phase2
  refine foldl_invariant (phase2Step g md)
    (fun st => st = (⟨[], []⟩ : Phase2St)) ?_ _ _ rfl
  intro st m hst
  subst hst
  cases hg : Graph.find? g m with
  | none => rw [phase2Step_eq_none md _ hg]
  | some node =>
    rw [phase2Step_eq_some md _ hg]
    by_cases hro : node.Dependents.isEmpty
    · rw [if_pos hro]
    · rw [if_neg hro, if_neg (fun h => Bool.noConfusion h)]
      cases hnd : node.Dependents with
      | nil => exact absurd (by rw [hnd]; rfl) hro
      | cons d ds => rfl

theorem phase3_nil (g : Graph) (md : Nat) :
    phase3 g md ⟨[], [], []⟩ = ⟨[], [], []⟩ := by
  unfold phase3
  refine foldl_invariant (phase3Node g md)
    (fun st => st = (⟨[], [], []⟩ : Phase3St)) ?_ _ _ rfl
  intro st m hst
  subst hst
  unfold phase3Node
  rw [if_neg (fun h => Bool.noConfusion h)]
  dsimp only
  have hinner := foldl_invariant (phase3Opt md)
    (fun p => p = ((⟨[], [], []⟩ : Phase3St), ([] : List Nat))) ?_
    ((Graph.find? g m).getD Node.empty).Optionals
    ((⟨[], [], []⟩ : Phase3St), ([] : List Nat)) rfl
  · rw [hinner]
    rfl
  · intro p o hp
    subst hp
    exact phase3Opt_eq_none md rfl

theorem processDepsAux_zero (g : Graph) (tids : List Nat) :
    (processDepsAux g tids 0).1.dependencies = [] ∧
      (processDepsAux g tids 0).1.optionals = [] := by
  have h2 : phase2 g 0 (phase1 g tids 0).rel = ⟨[], []⟩ := by
    rw [phase1_rel_zero_md]
    exact phase2_rel_nil g 0
  have h3 : phase3 g 0
      ⟨(phase2 g 0 (phase1 g tids 0).rel).rel,
        (phase2 g 0 (phase1 g tids 0).rel).dependencies, []⟩ = ⟨[], [], []⟩ := by
    rw [h2]
    exact phase3_nil g 0
  constructor
  · show (phase3 g 0
      ⟨(phase2 g 0 (phase1 g tids 0).rel).rel,
        (phase2 g 0 (phase1 g tids 0).rel).dependencies, []⟩).dependencies = []
    rw [h3]
  · show (phase3 g 0
      ⟨(phase2 g 0 (phase1 g tids 0).rel).rel,
        (phase2 g 0 (phase1 g tids 0).rel).dependencies, []⟩).optionals = []
    rw [h3]

/-! ### Claim C1: the phase-2 depth of an orphaned dependency -/

/-- With the accumulator started at 0 (as the source does), the phase-2
`minDepth` computation can never change: `depth + 1 < 0` is false for
naturals, so a successful dependents scan always reports depth 0. -/
theorem checkDependents_snd_eq_zero (rel : List (Nat × Nat)) (md : Nat) :
    ∀ dds parents pm, checkDependents rel md dds parents 0 = some pm → pm.2 = 0 := by
  intro dds
  induction dds with
  | nil =>
    intro parents pm h
    simp only [checkDependents] at h
    cases h
    rfl
  | cons d ds ih =>
    intro parents pm h
    simp only [checkDependents] at h
    cases hf : alistFind? rel d with
    | none => rw [hf] at h; cases h
    | some depth =>
      rw [hf] at h
      by_cases hmd : md ≤ depth
      · simp [hmd] at h
      · simp only [hmd, if_neg, ite_false] at h
        have : ¬ depth + 1 < 0 := Nat.not_lt_zero _
        rw [if_neg this] at h
        exact ih _ _ h

/-- Claim C1, evaluated at the failing input: in `exOrphan` with target 1
and unbounded depth, the orphaned candidate 2 has exactly one dependent
(node 1, visited at depth 0), so the claimed depth is 0 + 1 = 1; the code
marks 2 visited at depth 0 instead (the `minDepth` accumulator starts at
0 and is never updated). -/
theorem c1_orphan_depth_failing_input :
    alistFind? (processDeps exOrphan [1] (-1)).2 2 = some 0 ∧
      Graph.dependentsOf exOrphan 2 = [1] ∧
      alistFind? (processDeps exOrphan [1] (-1)).2 1 = some 0 ∧
      alistFind? (processDeps exOrphan [1] (-1)).2 2 ≠ some (0 + 1) := by
  refine ⟨by decide, by decide, by decide, by decide⟩

/-! ### Claim C2, counterexample: `Sorted` on a cyclic graph -/

/-- Claim C2 fails as stated: on the cyclic graph `exCyc` the Kahn loop
finds no roots, so `Sorted` returns the empty list and node 1 (a node of
the graph) does not appear in it at all. -/
theorem c2_sorted_counterexample :
    1 ∈ Graph.keys exCyc ∧ (Graph.Sorted exCyc).count 1 = 0 := by
  refine ⟨by decide, by decide⟩

/-! ### Claim C3, counterexample: the four key sets are not pairwise
disjoint -/

/-- Claim C3 fails as stated: in `exChain` with both nodes targeted and
depth bound 1, node 2 is a target and also a key of the `dependents`
result (its dependency 1 is expanded while 2's own queue entry at depth 1
is still pending). -/
theorem c3_partition_counterexample :
    2 ∈ (processDeps exChain [1, 2] 1).1.targets ∧
      (alistFind? (processDeps exChain [1, 2] 1).1.dependents 2).isSome := by
  refine ⟨by decide, by decide⟩

/-! ### Claim C4, counterexample: a target among the `dependents` keys -/

/-- Claim C4 fails as stated: after phase 1 on `exChain` with targets
{1, 2} and depth bound 1, the key set of `dependents` is not restricted
to non-target nodes: the target 2 is a key (it depends on the visited
target 1). -/
theorem c4_dependents_keys_counterexample :
    (alistFind? (phase1 exChain [1, 2] 1).dependents 2).isSome ∧
      2 ∈ seeds exChain [1, 2] := by
  refine ⟨by decide, by decide⟩

/-! ### Claims C8 and C9: the removal executor -/

theorem removeLoop_none {st : PackState} {n : Nat} {m : ManifestFileEntry}
    (h : arrayRemove st.files m.idx = none) : removeLoop (st, n) m = (st, n) := by
  unfold removeLoop
  rw [h]

theorem removeLoop_some {st : PackState} {n : Nat} {m : ManifestFileEntry}
    {files' : List Nat} (h : arrayRemove st.files m.idx = some files') :
    removeLoop (st, n) m =
      ({ st with files := files', cleanups := st.cleanups ++ [m.projId] }, n + 1) := by
  unfold removeLoop
  rw [h]

theorem removeLoop_count_mono (l : List ManifestFileEntry) :
    ∀ p : PackState × Nat, p.2 ≤ (l.foldl removeLoop p).2 := by
  induction l with
  | nil => intro p; exact Nat.le_refl _
  | cons m ms ih =>
    intro p
    refine Nat.le_trans ?_ (ih (removeLoop p m))
    rcases p with ⟨st, n⟩
    cases h : arrayRemove st.files m.idx with
    | none => rw [removeLoop_none h]
    | some files' => rw [removeLoop_some h]; exact Nat.le_succ _

theorem removeLoop_state_of_count_eq (l : List ManifestFileEntry) :
    ∀ (st : PackState) (n : Nat), (l.foldl removeLoop (st, n)).2 = n →
      (l.foldl removeLoop (st, n)).1 = st := by
  induction l with
  | nil => intro st n _; rfl
  | cons m ms ih =>
    intro st n h
    rw [List.foldl_cons] at h ⊢
    cases harr : arrayRemove st.files m.idx with
    | none => rw [removeLoop_none harr] at h ⊢; exact ih st n h
    | some files' =>
      exfalso
      rw [removeLoop_some harr] at h
      have hmono := removeLoop_count_mono ms
        ({ st with files := files', cleanups := st.cleanups ++ [m.projId] }, n + 1)
      rw [h] at hmono
      omega

/-- Claim C8: for a non-dry-run `_removeMods` call, zero successful
deletions yield the "no changes" error with the manifest left unsaved and
untouched; at least one success persists the manifest; and a strictly
smaller-than-requested success count persists the manifest but still
reports the partial-failure error. -/
theorem c8_remove_mods_outcomes (st : PackState) (mods : List ManifestFileEntry) :
    (removedCount st mods = 0 →
        removeMods false st mods = (st, some RemoveErr.noChanges)) ∧
      (0 < removedCount st mods → (removeMods false st mods).1.saved = true) ∧
      (0 < removedCount st mods → removedCount st mods < mods.length →
        (removeMods false st mods).1.saved = true ∧
          (removeMods false st mods).2 = some RemoveErr.someFailed) := by
  have hrun : removeMods false st mods = removeModsRun st mods := rfl
  refine ⟨?_, ?_, ?_⟩
  · intro h0
    unfold removedCount at h0
    have hst := removeLoop_state_of_count_eq (sortByIdxDesc mods) st 0 h0
    rw [hrun]
    unfold removeModsRun
    rw [if_neg (by omega)]
    rw [hst]
  · intro hpos
    unfold removedCount at hpos
    rw [hrun]
    unfold removeModsRun
    rw [if_pos hpos]
    split <;> rfl
  · intro hpos hlt
    unfold removedCount at hpos hlt
    rw [hrun]
    unfold removeModsRun
    rw [if_pos hpos, if_pos hlt]
    exact ⟨rfl, rfl⟩

/-- Witness for C8 at a concrete pack: manifest `[10, 20, 30]`, one entry
with a valid index and one with an out-of-range index; exactly one
deletion succeeds, the manifest is saved and the partial-failure error is
returned. -/
theorem c8_remove_mods_outcomes_witness :
    (removeMods false ⟨[10, 20, 30], false, []⟩ [⟨1, 7, 20⟩, ⟨5, 8, 99⟩]).1.saved = true ∧
      (removeMods false ⟨[10, 20, 30], false, []⟩ [⟨1, 7, 20⟩, ⟨5, 8, 99⟩]).2 =
        some RemoveErr.someFailed := by
  have h := (c8_remove_mods_outcomes ⟨[10, 20, 30], false, []⟩
    [⟨1, 7, 20⟩, ⟨5, 8, 99⟩]).2.2 (by decide) (by decide)
  exact h

/-- Claim C9: with the dry-run flag set, `_removeMods` returns
immediately with no error and the pack state (manifest files, saved flag,
cache cleanups) is exactly the input state. -/
theorem c9_dry_run_no_op (st : PackState) (mods : List ManifestFileEntry) :
    removeMods true st mods = (st, none) := rfl

/-! ### Amended partition and characterization theorems -/

/-- Claim C3, amended: the claimed pairwise disjointness of the four
result maps does not hold for the `dependents` map (see the
counterexample), but the remaining separations do, for every graph,
target set and depth bound: no target is a key of `dependencies`, no
target is a key of `optionals`, and no key of `optionals` is a key of
`dependencies`. -/
theorem c3_partition_amended (g : Graph) (tids : List Nat) (maxDepth : Int) :
    (∀ t ∈ (processDeps g tids maxDepth).1.targets,
      alistFind? (processDeps g tids maxDepth).1.dependencies t = none) ∧
      (∀ t ∈ (processDeps g tids maxDepth).1.targets,
        alistFind? (processDeps g tids maxDepth).1.optionals t = none) ∧
      (∀ k, (alistFind? (processDeps g tids maxDepth).1.optionals k).isSome →
        alistFind? (processDeps g tids maxDepth).1.dependencies k = none) := by
  have heq : processDeps g tids maxDepth =
      processDepsAux g tids (if maxDepth < 0 then MaxInt32 else maxDepth.toNat) :=
    rfl
  rw [heq]
  generalize (if maxDepth < 0 then MaxInt32 else maxDepth.toNat) = md
  by_cases h0 : md = 0
  · subst h0
    obtain ⟨hd, ho⟩ := processDepsAux_zero g tids
    refine ⟨fun t _ => by rw [hd]; rfl, fun t _ => by rw [ho]; rfl, fun k hk => ?_⟩
    rw [ho] at hk
    cases hk
  · have hmd1 : 1 ≤ md := Nat.one_le_iff_ne_zero.mpr h0
    have hseed := phase1_seed_visited g tids md hmd1
    obtain ⟨p1, p2, p3⟩ :=
      phase2_inv g md (seeds g tids) (phase1 g tids md).rel hseed
    have hstart : P3Inv (seeds g tids)
        ⟨(phase2 g md (phase1 g tids md).rel).rel,
          (phase2 g md (phase1 g tids md).rel).dependencies, []⟩ := by
      unfold P3Inv
      refine ⟨p1, p2, p3, fun t _ => rfl, ?_, ?_⟩
      · intro k hk
        cases hk
      · intro k l hl
        cases hl
    have hp3 := phase3_inv g md (seeds g tids) _ hstart
    unfold P3Inv at hp3
    obtain ⟨q1, q2, q3, q4, q5, q6⟩ := hp3
    exact ⟨fun t ht => q2 t ht, fun t ht => q4 t ht, fun k hk => q5 k hk⟩

/-- Witness for the amended C3 at a concrete run (both nodes of `exChain`
targeted, depth bound 1): target 1 is neither an orphaned dependency nor
an optionals key. -/
theorem c3_partition_amended_witness :
    alistFind? (processDeps exChain [1, 2] 1).1.dependencies 1 = none ∧
      alistFind? (processDeps exChain [1, 2] 1).1.optionals 1 = none := by
  refine ⟨(c3_partition_amended exChain [1, 2] 1).1 1 (by decide),
    (c3_partition_amended exChain [1, 2] 1).2.1 1 (by decide)⟩

/-- Claim C4, amended: after phase 1, an entry `x` appears in the list
recorded under key `k` of `dependents` exactly when `x` was visited by
the bounded BFS and `k` is a dependent of `x` — so the key set is exactly
the set of dependents of visited nodes.  In particular a key need not be
a non-target node: a target that depends on another visited node is a
key too (see the counterexample). -/
theorem c4_dependents_keys_amended (g : Graph) (tids : List Nat) (md : Nat) :
    (∀ x k,
      (∃ l, alistFind? (phase1 g tids md).dependents k = some l ∧ x ∈ l) ↔
        ((alistFind? (phase1 g tids md).rel x).isSome ∧
          k ∈ Graph.dependentsOf g x)) ∧
      (∀ k, (alistFind? (phase1 g tids md).dependents k).isSome ↔
        ∃ x, (alistFind? (phase1 g tids md).rel x).isSome ∧
          k ∈ Graph.dependentsOf g x) := by
  obtain ⟨h0, h1, h2⟩ := phase1_depmap g tids md
  constructor
  · intro x k
    constructor
    · rintro ⟨l, hl, hx⟩
      exact h1 k l hl x hx
    · rintro ⟨hx, hk⟩
      rcases h2 x hx k hk with ⟨l, hl, hxl⟩
      exact ⟨l, hl, hxl⟩
  · intro k
    constructor
    · intro h
      rcases Option.isSome_iff_exists.mp h with ⟨l, hl⟩
      have hne := h0 k l hl
      cases l with
      | nil => exact absurd rfl hne
      | cons x xs =>
        rcases h1 k _ hl x (List.mem_cons_self _ _) with ⟨hs, hk⟩
        exact ⟨x, hs, hk⟩
    · rintro ⟨x, hs, hk⟩
      rcases h2 x hs k hk with ⟨l, hl, _⟩
      rw [hl]
      rfl

/-! ### Claim C5: the depth bounds -/

/-- Claim C5: with depth bound 1, every key of the `dependents` result is
a direct dependent of a target; with depth bound -1 (`math.MaxInt32`
internally) the visited set of phase 1 is exactly the transitive closure
of reverse-dependency reachability from the targets, provided the graph
is small enough that depths cannot reach `MaxInt32` (the hypothesis holds
for any realistic pack). -/
theorem c5_depth_bounds (g : Graph) (tids : List Nat) :
    (∀ k, (alistFind? (processDeps g tids 1).1.dependents k).isSome →
      ∃ t, t ∈ seeds g tids ∧ k ∈ Graph.dependentsOf g t) ∧
      (g.length + totalDependents g + 2 ≤ MaxInt32 →
        ∀ v, (alistFind? (phase1 g tids MaxInt32).rel v).isSome ↔
          ReachDep g tids v) := by
  constructor
  · intro k hk
    have heq : (processDeps g tids 1).1.dependents =
        (phase1 g tids 1).dependents := rfl
    rw [heq] at hk
    have hiff := (c4_dependents_keys_amended g tids 1).2 k
    rcases hiff.mp hk with ⟨x, hs, hkx⟩
    rcases Option.isSome_iff_exists.mp hs with ⟨δ, hδ⟩
    have hlt := phase1_rel_lt g tids 1 x δ hδ
    have hδ0 : δ = 0 := by omega
    subst hδ0
    exact ⟨x, phase1_depth0 g tids 1 x hδ, hkx⟩
  · intro hbound v
    constructor
    · intro hv
      rcases Option.isSome_iff_exists.mp hv with ⟨δ, hδ⟩
      exact phase1_rel_pred g tids MaxInt32 (ReachDep g tids)
        (fun x y hx hy => ReachDep.step hx hy)
        (fun k hk => ReachDep.seed hk) v δ hδ
    · intro hreach
      induction hreach with
      | seed hk =>
        exact phase1_seed_visited g tids MaxInt32 (by decide) _ hk
      | step hx hy ihx =>
        rcases Option.isSome_iff_exists.mp ihx with ⟨δ, hδ⟩
        have hb := phase1_depth_bound g tids MaxInt32 _ δ hδ
        refine phase1_closure g tids MaxInt32 _ δ hδ ?_ _ hy
        unfold MaxInt32 at hbound ⊢
        omega

/-- Witness for C5 on `exChain` with target 1: the dependents key 2 is a
direct dependent of a target, and node 2 (reachable from the target) is
visited by the unbounded analysis. -/
theorem c5_depth_bounds_witness :
    (∃ t, t ∈ seeds exChain [1] ∧ 2 ∈ Graph.dependentsOf exChain t) ∧
      (alistFind? (phase1 exChain [1] MaxInt32).rel 2).isSome := by
  have h1 : ∃ t, t ∈ seeds exChain [1] ∧ 2 ∈ Graph.dependentsOf exChain t :=
    (c5_depth_bounds exChain [1]).1 2 (by decide)
  have hr1 : ReachDep exChain [1] 1 := ReachDep.seed (by decide)
  have hr2 : ReachDep exChain [1] 2 := ReachDep.step hr1 (by decide)
  have h2 : (alistFind? (phase1 exChain [1] MaxInt32).rel 2).isSome :=
    ((c5_depth_bounds exChain [1]).2 (by decide) 2).mpr hr2
  exact And.intro h1 h2

/-! ### Claim C10: optional targets never stay orphaned dependencies -/

/-- Claim C10: in the final analysis result, no entry recorded inside an
optionals list is a key of the `dependencies` map: an entry is appended
to an optionals list only when it is not currently an orphaned
dependency, and phase 3 never adds `dependencies` keys. -/
theorem c10_optionals_values_not_orphaned (g : Graph) (tids : List Nat)
    (maxDepth : Int) :
    ∀ k l, alistFind? (processDeps g tids maxDepth).1.optionals k = some l →
      ∀ o ∈ l, alistFind? (processDeps g tids maxDepth).1.dependencies o = none := by
  intro k l hl o ho
  have heq : processDeps g tids maxDepth =
      processDepsAux g tids (if maxDepth < 0 then MaxInt32 else maxDepth.toNat) :=
    rfl
  rw [heq] at hl ⊢
  generalize (if maxDepth < 0 then MaxInt32 else maxDepth.toNat) = md at hl ⊢
  obtain ⟨p1, p2, p3⟩ := phase2_inv g md [] (phase1 g tids md).rel
    (fun t ht => absurd ht (List.not_mem_nil t))
  have hstart : P3Inv []
      ⟨(phase2 g md (phase1 g tids md).rel).rel,
        (phase2 g md (phase1 g tids md).rel).dependencies, []⟩ := by
    unfold P3Inv
    refine ⟨p1, p2, p3, fun t ht => absurd ht (List.not_mem_nil t), ?_, ?_⟩
    · intro k' hk'
      cases hk'
    · intro k' l' hl'
      cases hl'
  have hp3 := phase3_inv g md [] _ hstart
  unfold P3Inv at hp3
  exact hp3.2.2.2.2.2 k l hl o ho

/-- Witness for C10 on `exDangling` with target 1: node 3's dangling
optional 1 is not an orphaned dependency. -/
theorem c10_optionals_values_not_orphaned_witness :
    alistFind? (processDeps exDangling [1] (-1)).1.dependencies 1 = none := by
  exact c10_optionals_values_not_orphaned exDangling [1] (-1) 3 [1]
    (by decide) 1 (by decide)

/-! ### Claim C6: phase-3 handling of one optional edge -/

theorem foldl_take_succ {α β : Type} (f : β → α → β) (l : List α) (init : β)
    (i : Nat) (h : i < l.length) :
    (l.take (i + 1)).foldl f init = f ((l.take i).foldl f init) (l.get ⟨i, h⟩) := by
  rw [List.take_succ]
  rw [List.getElem?_eq_getElem h]
  rw [List.foldl_append]
  rfl

/-- Claim C6: phase 3 processes each unvisited node by scanning its
optionals with `phase3Opt` (first conjunct), and for each position `i` of
the optionals list whose target is visited below the depth bound at the
state reached after the first `i` optionals: if that target is currently
a `dependencies` key, the step removes it from `dependencies` and from
the visited map and does not append it to the accumulated `opts` list;
otherwise it appends it to `opts` and leaves the maps unchanged. -/
theorem c6_phase3_optional_handling (g : Graph) (md : Nat) (st : Phase3St)
    (m : Nat) (node : Node) (hvis : alistFind? st.rel m = none)
    (hg : Graph.find? g m = some node) :
    (phase3Node g md st m =
      (if (node.Optionals.foldl (phase3Opt md) (st, [])).2.isEmpty
       then (node.Optionals.foldl (phase3Opt md) (st, [])).1
       else
         ⟨(node.Optionals.foldl (phase3Opt md) (st, [])).1.rel,
           (node.Optionals.foldl (phase3Opt md) (st, [])).1.dependencies,
           (node.Optionals.foldl (phase3Opt md) (st, [])).1.optionals ++
             [(m, (node.Optionals.foldl (phase3Opt md) (st, [])).2)]⟩)) ∧
      ∀ (i : Nat) (h : i < node.Optionals.length) (p : Phase3St × List Nat),
        p = (node.Optionals.take i).foldl (phase3Opt md) (st, []) →
        ∀ depth, alistFind? p.1.rel (node.Optionals.get ⟨i, h⟩) = some depth →
          depth < md →
          ((alistFind? p.1.dependencies (node.Optionals.get ⟨i, h⟩)).isSome →
            (node.Optionals.take (i + 1)).foldl (phase3Opt md) (st, []) =
              (⟨relDelete p.1.rel (node.Optionals.get ⟨i, h⟩),
                 mapDelete p.1.dependencies (node.Optionals.get ⟨i, h⟩),
                 p.1.optionals⟩, p.2)) ∧
            (alistFind? p.1.dependencies (node.Optionals.get ⟨i, h⟩) = none →
              (node.Optionals.take (i + 1)).foldl (phase3Opt md) (st, []) =
                (p.1, p.2 ++ [node.Optionals.get ⟨i, h⟩])) := by
  constructor
  · have hnode : (Graph.find? g m).getD Node.empty = node := by
      rw [hg]
      rfl
    unfold phase3Node
    rw [if_neg (by rw [hvis]; exact fun hc => Bool.noConfusion hc)]
    dsimp only
    rw [hnode]
  · intro i h p hp depth hrel hdepth
    have hstep := foldl_take_succ (phase3Opt md) node.Optionals
      ((st, []) : Phase3St × List Nat) i h
    rw [hstep, ← hp]
    rw [phase3Opt_eq_some md hrel]
    rw [if_neg (by omega : ¬ md ≤ depth)]
    constructor
    · intro hdep
      rw [if_pos hdep]
    · intro hdep
      rw [if_neg (by rw [hdep]; exact fun hc => Bool.noConfusion hc)]

/-- Witness for C6 at the `exUnorphan` state after phase 2: node 3 is
unvisited, its optional target 2 is visited at depth 0 and currently an
orphaned dependency, so the step removes 2 from both maps and appends
nothing. -/
theorem c6_phase3_optional_handling_witness :
    ((⟨[], [], [2]⟩ : Node).Optionals.take (0 + 1)).foldl (phase3Opt 7)
        ((⟨[(1, 0), (2, 0)], [(2, [1])], []⟩ : Phase3St), []) =
      ((⟨[(1, 0)], [], []⟩ : Phase3St), ([] : List Nat)) := by
  have h := (c6_phase3_optional_handling exUnorphan 7
      ⟨[(1, 0), (2, 0)], [(2, [1])], []⟩ 3 ⟨[], [], [2]⟩
      (by decide) (by decide)).2 0 (by decide)
      ((⟨[(1, 0), (2, 0)], [(2, [1])], []⟩ : Phase3St), []) rfl 0
      (by decide) (by decide)
  exact (h.1 (by decide)).trans (by decide)

/-! ### Lemmas for the topological sort -/

theorem listIdx_append_left {l : List Nat} (l' : List Nat) {a : Nat}
    (h : a ∈ l) : listIdx (l ++ l') a = listIdx l a := by
  induction l with
  | nil => cases h
  | cons x xs ih =>
    show (if x = a then 0 else listIdx (xs ++ l') a + 1) =
      (if x = a then 0 else listIdx xs a + 1)
    by_cases hx : x = a
    · rw [if_pos hx, if_pos hx]
    · rw [if_neg hx, if_neg hx,
        ih (by rcases List.mem_cons.mp h with h | h; exact absurd h.symm hx; exact h)]

theorem listIdx_snoc_self {l : List Nat} {n : Nat} (h : n ∉ l) :
    listIdx (l ++ [n]) n = l.length := by
  induction l with
  | nil => show (if n = n then 0 else _) = 0; rw [if_pos rfl]
  | cons x xs ih =>
    show (if x = n then 0 else listIdx (xs ++ [n]) n + 1) = xs.length + 1
    have hx : ¬ x = n := fun he => h (he ▸ List.mem_cons_self _ _)
    rw [if_neg hx, ih (fun hm => h (List.mem_cons_of_mem _ hm))]

theorem mem_take_listIdx_lt : ∀ (l : List Nat) (i : Nat) (a : Nat),
    a ∈ l.take i → listIdx l a < i := by
  intro l
  induction l with
  | nil => intro i a h; rw [List.take_nil] at h; cases h
  | cons x xs ih =>
    intro i a h
    cases i with
    | zero => cases h
    | succ j =>
      rw [List.take_succ_cons] at h
      show (if x = a then 0 else listIdx xs a + 1) < j + 1
      by_cases hx : x = a
      · rw [if_pos hx]; omega
      · rw [if_neg hx]
        rcases List.mem_cons.mp h with h | h
        · exact absurd h.symm hx
        · have := ih j a h
          omega

theorem take_subset_self {l : List Nat} {i : Nat} {a : Nat}
    (h : a ∈ l.take i) : a ∈ l :=
  List.take_subset i l h

theorem degGet_cons (k0 : Nat) (v0 : Int) (rest : List (Nat × Int)) (k' : Nat) :
    degGet ((k0, v0) :: rest) k' = if k0 = k' then v0 else degGet rest k' := by
  unfold degGet
  rw [alistFind?_cons]
  by_cases h : k0 = k'
  · rw [if_pos h, if_pos h]
    rfl
  · rw [if_neg h, if_neg h]

theorem degGet_degSet : ∀ (ds : List (Nat × Int)) (k : Nat) (v : Int) (k' : Nat),
    degGet (degSet ds k v) k' = if k = k' then v else degGet ds k' := by
  intro ds
  induction ds with
  | nil =>
    intro k v k'
    show degGet [(k, v)] k' = _
    unfold degGet
    rw [alistFind?_singleton]
    by_cases hk : k = k'
    · rw [if_pos hk, if_pos hk]
      rfl
    · rw [if_neg hk, if_neg hk]
      rfl
  | cons p rest ih =>
    intro k v k'
    rcases p with ⟨k0, v0⟩
    by_cases h0 : k0 = k
    · subst h0
      have hset : degSet ((k0, v0) :: rest) k0 v = (k0, v) :: rest := by
        unfold degSet
        rw [if_pos rfl]
      rw [hset, degGet_cons, degGet_cons]
      by_cases h1 : k0 = k'
      · rw [if_pos h1, if_pos h1]
      · simp only [if_neg h1]
    · have hset : degSet ((k0, v0) :: rest) k v = (k0, v0) :: degSet rest k v := by
        conv_lhs => unfold degSet
        rw [if_neg h0]
      rw [hset, degGet_cons, degGet_cons, ih]
      by_cases h1 : k0 = k'
      · rw [if_pos h1, if_pos h1,
          if_neg (fun he => h0 (h1.trans he.symm))]
      · rw [if_neg h1, if_neg h1]

theorem kahnStep_fold_char :
    ∀ (L : List Nat) (g : Graph) (deg : List (Nat × Int)) (q : List Nat),
      L.Nodup →
      (∀ k, degGet (L.foldl
          (fun (p : List (Nat × Int) × List Nat) d =>
            let v := degGet p.1 d - 1
            let ds := degSet p.1 d v
            if v = 0 then (ds, p.2 ++ [d]) else (ds, p.2)) (deg, q)).1 k =
        degGet deg k - (if k ∈ L then 1 else 0)) ∧
        (L.foldl
          (fun (p : List (Nat × Int) × List Nat) d =>
            let v := degGet p.1 d - 1
            let ds := degSet p.1 d v
            if v = 0 then (ds, p.2 ++ [d]) else (ds, p.2)) (deg, q)).2 =
          q ++ L.filter (fun d => decide (degGet deg d = 1)) := by
  intro L
  induction L with
  | nil =>
    intro g deg q _
    constructor
    · intro k
      rw [if_neg (List.not_mem_nil k)]
      show degGet deg k = degGet deg k - 0
      omega
    · show q = q ++ []
      rw [List.append_nil]
  | cons d L' ih =>
    intro g deg q hnd
    rw [List.nodup_cons] at hnd
    rw [List.foldl_cons]
    have hstep :
        (let v := degGet deg d - 1
         let ds := degSet deg d v
         if v = 0 then (ds, q ++ [d]) else (ds, q)) =
          (degSet deg d (degGet deg d - 1),
            if degGet deg d = 1 then q ++ [d] else q) := by
      by_cases hv : degGet deg d - 1 = 0
      · show (if degGet deg d - 1 = 0 then _ else _) = _
        rw [if_pos hv, if_pos (by omega)]
      · show (if degGet deg d - 1 = 0 then _ else _) = _
        rw [if_neg hv, if_neg (by omega)]
    rw [hstep]
    obtain ⟨ihd, ihq⟩ := ih g (degSet deg d (degGet deg d - 1))
      (if degGet deg d = 1 then q ++ [d] else q) hnd.2
    constructor
    · intro k
      rw [ihd k, degGet_degSet]
      by_cases hk : d = k
      · subst hk
        rw [if_pos rfl, if_pos (List.mem_cons_self _ _),
          if_neg (fun hm => hnd.1 hm)]
        omega
      · rw [if_neg hk]
        by_cases hkL : k ∈ L'
        · rw [if_pos hkL, if_pos (List.mem_cons_of_mem _ hkL)]
        · rw [if_neg hkL,
            if_neg (fun hm => by
              rcases List.mem_cons.mp hm with hm | hm
              · exact hk hm.symm
              · exact hkL hm)]
    · rw [ihq]
      have hfilter : L'.filter (fun x => decide (degGet
          (degSet deg d (degGet deg d - 1)) x = 1)) =
          L'.filter (fun x => decide (degGet deg x = 1)) := by
        apply List.filter_congr
        intro x hx
        have hne : ¬ d = x := fun he => hnd.1 (by rw [he]; exact hx)
        rw [degGet_degSet, if_neg hne]
      rw [hfilter, List.filter_cons]
      by_cases hd : degGet deg d = 1
      · rw [if_pos hd, if_pos (show (decide (degGet deg d = 1)) = true by simp [hd])]
        simp
      · rw [if_neg hd, if_neg (show ¬ (decide (degGet deg d = 1)) = true by simp [hd])]

theorem kahnStep_char (g : Graph) (deg : List (Nat × Int)) (q : List Nat)
    (n : Nat) (hnd : (Graph.depsOf g n).Nodup) :
    (∀ k, degGet (kahnStep g deg q n).1 k =
      degGet deg k - (if k ∈ Graph.depsOf g n then 1 else 0)) ∧
      (kahnStep g deg q n).2 =
        q ++ (Graph.depsOf g n).filter (fun d => decide (degGet deg d = 1)) :=
  kahnStep_fold_char (Graph.depsOf g n) g deg q hnd

theorem find?_cons (k0 : Nat) (n0 : Node) (g : Graph) (k : Nat) :
    Graph.find? ((k0, n0) :: g) k = if k0 = k then some n0 else Graph.find? g k :=
  rfl

theorem dependentsOf_cons (k0 : Nat) (n0 : Node) (g : Graph) (k : Nat) :
    Graph.dependentsOf ((k0, n0) :: g) k =
      if k0 = k then n0.Dependents else Graph.dependentsOf g k := by
  unfold Graph.dependentsOf
  rw [find?_cons]
  by_cases h : k0 = k
  · rw [if_pos h, if_pos h]
    rfl
  · rw [if_neg h, if_neg h]

theorem dependentsOf_getD {g : Graph} {b : Nat}
    (h : (Graph.find? g b).isSome) :
    ((Graph.find? g b).getD Node.empty).Dependents = Graph.dependentsOf g b := by
  rcases Option.isSome_iff_exists.mp h with ⟨nb, hnb⟩
  rw [dependentsOf_of_find?_some hnb, hnb]
  rfl

theorem depsOf_getD {g : Graph} {b : Nat} (h : (Graph.find? g b).isSome) :
    ((Graph.find? g b).getD Node.empty).Dependencies = Graph.depsOf g b := by
  rcases Option.isSome_iff_exists.mp h with ⟨nb, hnb⟩
  unfold Graph.depsOf
  rw [hnb]
  rfl

theorem wf_dependentsOf_nodup {g : Graph} (hwf : GraphWF g) (k : Nat) :
    (Graph.dependentsOf g k).Nodup := by
  cases hf : Graph.find? g k with
  | none => rw [dependentsOf_of_find?_none hf]; exact List.nodup_nil
  | some nk =>
    rw [dependentsOf_of_find?_some hf]
    exact (hwf.2 (k, nk) (alistFind?_mem hf)).2.1

theorem wf_depsOf_nodup {g : Graph} (hwf : GraphWF g) (k : Nat) :
    (Graph.depsOf g k).Nodup := by
  cases hf : Graph.find? g k with
  | none => unfold Graph.depsOf; rw [hf]; exact List.nodup_nil
  | some nk =>
    unfold Graph.depsOf
    rw [hf]
    exact (hwf.2 (k, nk) (alistFind?_mem hf)).1

theorem wf_dep_recip {g : Graph} (hwf : GraphWF g) {a b : Nat}
    (h : b ∈ Graph.depsOf g a) :
    (Graph.find? g b).isSome ∧ a ∈ Graph.dependentsOf g b := by
  cases hf : Graph.find? g a with
  | none =>
    exfalso
    unfold Graph.depsOf at h
    rw [hf] at h
    cases h
  | some na =>
    unfold Graph.depsOf at h
    rw [hf] at h
    have hmem := (hwf.2 (a, na) (alistFind?_mem hf)).2.2.1 b h
    exact ⟨hmem.1, by rw [← dependentsOf_getD hmem.1]; exact hmem.2⟩

theorem wf_dept_recip {g : Graph} (hwf : GraphWF g) {a b : Nat}
    (h : a ∈ Graph.dependentsOf g b) :
    (Graph.find? g a).isSome ∧ b ∈ Graph.depsOf g a := by
  cases hf : Graph.find? g b with
  | none =>
    exfalso
    rw [dependentsOf_of_find?_none hf] at h
    cases h
  | some nb =>
    rw [dependentsOf_of_find?_some hf] at h
    have hmem := (hwf.2 (b, nb) (alistFind?_mem hf)).2.2.2 a h
    exact ⟨hmem.1, by rw [← depsOf_getD hmem.1]; exact hmem.2⟩

theorem mem_keys_iff_isSome {g : Graph} {k : Nat} :
    k ∈ Graph.keys g ↔ (Graph.find? g k).isSome :=
  alistFind?_isSome_iff_mem_keys.symm

theorem degInit_isSome_mem {g : Graph} {k : Nat}
    (h : (alistFind? (Graph.degInit g) k).isSome) : k ∈ Graph.keys g := by
  induction g with
  | nil => cases h
  | cons p g' ih =>
    rcases p with ⟨k0, n0⟩
    unfold Graph.degInit at h
    by_cases hroot : n0.Dependents.isEmpty
    · rw [List.filter_cons_of_neg (by simpa using hroot)] at h
      exact List.mem_cons_of_mem _ (ih (by unfold Graph.degInit; exact h))
    · rw [List.filter_cons_of_pos (by simpa using hroot), List.map_cons,
        alistFind?_cons] at h
      by_cases hk : k0 = k
      · rw [hk]
        exact List.mem_cons_self _ _
      · rw [if_neg hk] at h
        exact List.mem_cons_of_mem _ (ih (by unfold Graph.degInit; exact h))

theorem degGet_degInit {g : Graph} (hnd : (Graph.keys g).Nodup) :
    ∀ k, degGet (Graph.degInit g) k = ((Graph.dependentsOf g k).length : Int) := by
  induction g with
  | nil =>
    intro k
    rw [dependentsOf_of_find?_none (show Graph.find? ([] : Graph) k = none from rfl)]
    rfl
  | cons p g' ih =>
    rcases p with ⟨k0, n0⟩
    rw [Graph.keys, List.map_cons, List.nodup_cons] at hnd
    intro k
    rw [dependentsOf_cons]
    have hdecons : Graph.degInit ((k0, n0) :: g') =
        if n0.Dependents.isEmpty then Graph.degInit g'
        else (k0, (n0.Dependents.length : Int)) :: Graph.degInit g' := by
      unfold Graph.degInit
      by_cases hroot : n0.Dependents.isEmpty
      · rw [List.filter_cons_of_neg (by simpa using hroot), if_pos hroot]
      · rw [List.filter_cons_of_pos (by simpa using hroot), if_neg hroot,
          List.map_cons]
    rw [hdecons]
    by_cases hroot : n0.Dependents.isEmpty
    · rw [if_pos hroot]
      by_cases hk : k0 = k
      · rw [if_pos hk]
        have hkmem : k ∉ Graph.keys g' := by rw [← hk]; exact hnd.1
        have hnone : alistFind? (Graph.degInit g') k = none := by
          cases hs : alistFind? (Graph.degInit g') k with
          | none => rfl
          | some v =>
            exact absurd (degInit_isSome_mem (by rw [hs]; rfl)) hkmem
        rw [List.isEmpty_iff] at hroot
        rw [hroot]
        unfold degGet
        rw [hnone]
        rfl
      · rw [if_neg hk]
        exact ih hnd.2 k
    · rw [if_neg hroot, degGet_cons]
      by_cases hk : k0 = k
      · rw [if_pos hk, if_pos hk]
      · rw [if_neg hk, if_neg hk]
        exact ih hnd.2 k

theorem roots_nodup {g : Graph} (hnd : (Graph.keys g).Nodup) :
    (Graph.roots g).Nodup := by
  unfold Graph.roots
  exact List.Nodup.sublist (List.Sublist.map _ (List.filter_sublist g)) hnd

theorem roots_sub_keys {g : Graph} : ∀ k ∈ Graph.roots g, k ∈ Graph.keys g := by
  intro k hk
  unfold Graph.roots at hk
  rcases List.mem_map.mp hk with ⟨p, hp, he⟩
  exact List.mem_map.mpr ⟨p, List.mem_of_mem_filter hp, he⟩

theorem mem_roots_iff {g : Graph} (hnd : (Graph.keys g).Nodup) (k : Nat) :
    k ∈ Graph.roots g ↔ Graph.dependentsOf g k = [] ∧ k ∈ Graph.keys g := by
  constructor
  · intro hk
    unfold Graph.roots at hk
    rcases List.mem_map.mp hk with ⟨p, hp, he⟩
    have hmem := List.mem_of_mem_filter hp
    have hfe := List.of_mem_filter hp
    have hfind : Graph.find? g p.1 = some p.2 := alistFind?_of_mem_nodup hnd
      (by rcases p with ⟨a, b⟩; exact hmem)
    subst he
    constructor
    · rw [dependentsOf_of_find?_some hfind]
      rw [← List.isEmpty_iff]
      simpa using hfe
    · exact List.mem_map.mpr ⟨p, hmem, rfl⟩
  · rintro ⟨hdep, hkey⟩
    rcases Option.isSome_iff_exists.mp (mem_keys_iff_isSome.mp hkey) with ⟨nk, hnk⟩
    unfold Graph.roots
    refine List.mem_map.mpr ⟨(k, nk), ?_, rfl⟩
    refine List.mem_filter.mpr ⟨alistFind?_mem hnk, ?_⟩
    rw [dependentsOf_of_find?_some hnk] at hdep
    simp [hdep]

theorem kahnLoop_zero (g : Graph) (q : List Nat) (deg : List (Nat × Int))
    (sorted : List Nat) : kahnLoop g 0 q deg sorted = sorted := rfl

theorem kahnLoop_succ_nil (g : Graph) (f : Nat) (deg : List (Nat × Int))
    (sorted : List Nat) : kahnLoop g (f + 1) [] deg sorted = sorted := rfl

theorem kahnLoop_succ_cons (g : Graph) (f : Nat) (n : Nat) (rest : List Nat)
    (deg : List (Nat × Int)) (sorted : List Nat) :
    kahnLoop g (f + 1) (n :: rest) deg sorted =
      kahnLoop g f (kahnStep g deg rest n).2 (kahnStep g deg rest n).1
        (sorted ++ [n]) := rfl

theorem filter_out_one {sorted : List Nat} {n : Nat} (hns : n ∉ sorted) :
    ∀ {l : List Nat}, l.Nodup →
      (l.filter (fun a => decide (a ∉ sorted ++ [n]))).length +
          (if n ∈ l then 1 else 0) =
        (l.filter (fun a => decide (a ∉ sorted))).length := by
  intro l
  induction l with
  | nil =>
    intro _
    rw [if_neg (List.not_mem_nil n)]
    rfl
  | cons x tail ih =>
    intro hnd
    rw [List.nodup_cons] at hnd
    rw [List.filter_cons, List.filter_cons]
    by_cases hxn : x = n
    · subst hxn
      have h1 : ¬(decide (x ∉ sorted ++ [x]) = true) := by simp
      have h2 : decide (x ∉ sorted) = true := by
        simp only [decide_eq_true_eq]
        exact hns
      rw [if_neg h1, if_pos h2, if_pos (List.mem_cons_self x tail)]
      have := ih hnd.2
      rw [if_neg hnd.1] at this
      rw [List.length_cons]
      omega
    · have hmem : (x ∉ sorted ++ [n]) ↔ (x ∉ sorted) := by
        rw [List.mem_append, List.mem_singleton]
        constructor
        · intro h hx; exact h (Or.inl hx)
        · intro h hx
          rcases hx with hx | hx
          · exact h hx
          · exact hxn hx
      have hif : (if n ∈ x :: tail then 1 else 0) =
          (if n ∈ tail then (1 : Nat) else 0) := by
        by_cases hn : n ∈ tail
        · rw [if_pos hn, if_pos (List.mem_cons_of_mem _ hn)]
        · rw [if_neg hn, if_neg (by
            intro hc
            rcases List.mem_cons.mp hc with hc | hc
            · exact hxn hc.symm
            · exact hn hc)]
      rw [hif]
      by_cases hx : x ∈ sorted
      · have hl : ¬(decide (x ∉ sorted ++ [n]) = true) := by
          simp only [decide_eq_true_eq, hmem]
          exact fun h => h hx
        have hr : ¬(decide (x ∉ sorted) = true) := by
          simp only [decide_eq_true_eq]
          exact fun h => h hx
        rw [if_neg hl, if_neg hr]
        exact ih hnd.2
      · have hl : decide (x ∉ sorted ++ [n]) = true := by
          simp only [decide_eq_true_eq, hmem]
          exact hx
        have hr : decide (x ∉ sorted) = true := by
          simp only [decide_eq_true_eq]
          exact hx
        rw [if_pos hl, if_pos hr]
        simp only [List.length_cons]
        have := ih hnd.2
        omega

theorem listIdx_lt_length {l : List Nat} {b : Nat} (h : b ∈ l) :
    listIdx l b < l.length := by
  induction l with
  | nil => cases h
  | cons x xs ih =>
    show (if x = b then 0 else listIdx xs b + 1) < xs.length + 1
    by_cases hx : x = b
    · rw [if_pos hx]; omega
    · rw [if_neg hx]
      have := ih (by
        rcases List.mem_cons.mp h with h | h
        · exact absurd h.symm hx
        · exact h)
      omega

theorem take_append_le {l : List Nat} (l' : List Nat) :
    ∀ {i : Nat}, i ≤ l.length → (l ++ l').take i = l.take i := by
  induction l with
  | nil =>
    intro i hi
    have : i = 0 := by simpa using hi
    subst this
    rfl
  | cons x xs ih =>
    intro i hi
    cases i with
    | zero => rfl
    | succ j =>
      rw [List.cons_append, List.take_succ_cons, List.take_succ_cons,
        ih (by simpa using hi)]

theorem nodup_subset_length {l m : List Nat} (hl : l.Nodup) (hm : m.Nodup)
    (hsub : ∀ x ∈ l, x ∈ m) (hlen : m.length ≤ l.length) : ∀ x ∈ m, x ∈ l := by
  intro x hx
  have h1 : l.toFinset.card = l.length := List.toFinset_card_of_nodup hl
  have h2 : m.toFinset.card = m.length := List.toFinset_card_of_nodup hm
  have hsubF : l.toFinset ⊆ m.toFinset := by
    intro y hy
    exact List.mem_toFinset.mpr (hsub y (List.mem_toFinset.mp hy))
  have heq : l.toFinset = m.toFinset :=
    Finset.eq_of_subset_of_card_le hsubF (by omega)
  rw [← List.mem_toFinset, heq, List.mem_toFinset]
  exact hx

theorem kahn_main (g : Graph) (hwf : GraphWF g) :
    ∀ (fuel : Nat) (q : List Nat) (deg : List (Nat × Int)) (sorted : List Nat),
      KahnInv g q deg sorted →
      g.length ≤ fuel + sorted.length →
      (kahnLoop g fuel q deg sorted).Nodup ∧
        (∀ k ∈ kahnLoop g fuel q deg sorted, k ∈ Graph.keys g) ∧
        (∀ k ∈ Graph.keys g,
          (∀ a ∈ Graph.dependentsOf g k, a ∈ kahnLoop g fuel q deg sorted) →
            k ∈ kahnLoop g fuel q deg sorted) ∧
        (∀ b ∈ kahnLoop g fuel q deg sorted, ∀ a ∈ Graph.dependentsOf g b,
          a ∈ (kahnLoop g fuel q deg sorted).take
            (listIdx (kahnLoop g fuel q deg sorted) b)) := by
  intro fuel
  induction fuel with
  | zero =>
    intro q deg sorted hinv hcount
    obtain ⟨hsnd, hqnd, hskeys, hqkeys, hdisj, hB, hBneg, hC, hOrd⟩ := hinv
    rw [kahnLoop_zero]
    have hkeyslen : (Graph.keys g).length = g.length := by
      unfold Graph.keys
      exact List.length_map _ _
    have hcover : ∀ x ∈ Graph.keys g, x ∈ sorted :=
      nodup_subset_length hsnd hwf.1 hskeys (by omega)
    exact ⟨hsnd, hskeys, fun k hk _ => hcover k hk, hOrd⟩
  | succ f ih =>
    intro q deg sorted hinv hcount
    cases q with
    | nil =>
      obtain ⟨hsnd, hqnd, hskeys, hqkeys, hdisj, hB, hBneg, hC, hOrd⟩ := hinv
      rw [kahnLoop_succ_nil]
      refine ⟨hsnd, hskeys, ?_, hOrd⟩
      intro k hk hsub
      rcases (hC k hk).mp hsub with h | h
      · cases h
      · exact h
    | cons n rest =>
      obtain ⟨hsnd, hqnd, hskeys, hqkeys, hdisj, hB, hBneg, hC, hOrd⟩ := hinv
      rw [kahnLoop_succ_cons]
      have hnkeys : n ∈ Graph.keys g := hqkeys n (List.mem_cons_self _ _)
      have hnsorted : n ∉ sorted := hdisj n (List.mem_cons_self _ _)
      rw [List.nodup_cons] at hqnd
      have hnrest : n ∉ rest := hqnd.1
      have hrestnd : rest.Nodup := hqnd.2
      have hDptn : ∀ a ∈ Graph.dependentsOf g n, a ∈ sorted :=
        (hC n hnkeys).mpr (Or.inl (List.mem_cons_self _ _))
      obtain ⟨hdegchar, hqchar⟩ :=
        kahnStep_char g deg rest n (wf_depsOf_nodup hwf n)
      have hdeg0 : ∀ d ∈ Graph.keys g,
          (∀ a ∈ Graph.dependentsOf g d, a ∈ sorted) → degGet deg d = 0 := by
        intro d hd hsub
        rw [hB d hd]
        have hnilf : (Graph.dependentsOf g d).filter
            (fun a => decide (a ∉ sorted)) = [] := by
          rw [List.filter_eq_nil]
          intro a ha
          simp only [decide_eq_true_eq, not_not]
          exact hsub a ha
        rw [hnilf]
        rfl
      have hadds_mem : ∀ d, d ∈ (Graph.depsOf g n).filter
          (fun x => decide (degGet deg x = 1)) ↔
            (d ∈ Graph.depsOf g n ∧ degGet deg d = 1) := by
        intro d
        rw [List.mem_filter]
        simp only [decide_eq_true_eq]
      have hadds_keys : ∀ d ∈ Graph.depsOf g n, d ∈ Graph.keys g := by
        intro d hd
        exact mem_keys_iff_isSome.mpr (wf_dep_recip hwf hd).1
      have hadds_not_sorted : ∀ d, d ∈ Graph.depsOf g n →
          degGet deg d = 1 → d ∉ sorted := by
        intro d hd h1 hds
        have hsub : ∀ a ∈ Graph.dependentsOf g d, a ∈ sorted := by
          intro a ha
          exact take_subset_self (hOrd d hds a ha)
        have := hdeg0 d (hadds_keys d hd) hsub
        omega
      have hadds_ne_n : ∀ d ∈ Graph.depsOf g n, d ≠ n := by
        intro d hd he
        subst he
        exact hnsorted (hDptn d (wf_dep_recip hwf hd).2)
      have hadds_not_rest : ∀ d, d ∈ Graph.depsOf g n →
          degGet deg d = 1 → d ∉ rest := by
        intro d hd h1 hdr
        have hsub := (hC d (hadds_keys d hd)).mpr
          (Or.inl (List.mem_cons_of_mem _ hdr))
        have := hdeg0 d (hadds_keys d hd) hsub
        omega
      have hinv' : KahnInv g (kahnStep g deg rest n).2
          (kahnStep g deg rest n).1 (sorted ++ [n]) := by
        rw [hqchar]
        unfold KahnInv
        refine ⟨?_, ?_, ?_, ?_, ?_, ?_, ?_, ?_, ?_⟩
        · rw [List.nodup_append]
          refine ⟨hsnd, List.nodup_singleton n, ?_⟩
          intro a ha hb
          rw [List.mem_singleton] at hb
          exact hnsorted (hb ▸ ha)
        · rw [List.nodup_append]
          refine ⟨hrestnd, List.Nodup.filter _ (wf_depsOf_nodup hwf n), ?_⟩
          intro a ha hb
          rcases (hadds_mem a).mp hb with ⟨hb1, hb2⟩
          exact hadds_not_rest a hb1 hb2 ha
        · intro k hk
          rcases List.mem_append.mp hk with hk | hk
          · exact hskeys k hk
          · rw [List.mem_singleton] at hk
            rw [hk]
            exact hnkeys
        · intro k hk
          rcases List.mem_append.mp hk with hk | hk
          · exact hqkeys k (List.mem_cons_of_mem _ hk)
          · exact hadds_keys k ((hadds_mem k).mp hk).1
        · intro k hk
          rw [List.mem_append, List.mem_singleton]
          rcases List.mem_append.mp hk with hk | hk
          · rintro (hs | he)
            · exact hdisj k (List.mem_cons_of_mem _ hk) hs
            · exact hnrest (he ▸ hk)
          · rcases (hadds_mem k).mp hk with ⟨h1, h2⟩
            rintro (hs | he)
            · exact hadds_not_sorted k h1 h2 hs
            · exact hadds_ne_n k h1 he
        · intro k hk
          rw [hdegchar k, hB k hk]
          have hrecip : k ∈ Graph.depsOf g n ↔ n ∈ Graph.dependentsOf g k := by
            constructor
            · intro h
              exact (wf_dep_recip hwf h).2
            · intro h
              exact (wf_dept_recip hwf h).2
          have hcnt := filter_out_one hnsorted (wf_dependentsOf_nodup hwf k)
          by_cases hkL : k ∈ Graph.depsOf g n
          · rw [if_pos hkL]
            rw [if_pos (hrecip.mp hkL)] at hcnt
            omega
          · rw [if_neg hkL]
            rw [if_neg (fun h => hkL (hrecip.mpr h))] at hcnt
            omega
        · intro k hk
          rw [hdegchar k]
          have h0 := hBneg k hk
          rw [if_neg (fun h => hk (hadds_keys k h))]
          omega
        · intro k hk
          constructor
          · intro hsub
            by_cases hnk : n ∈ Graph.dependentsOf g k
            · have hkL : k ∈ Graph.depsOf g n := (wf_dept_recip hwf hnk).2
              have hcnt := filter_out_one hnsorted (wf_dependentsOf_nodup hwf k)
              rw [if_pos hnk] at hcnt
              have hnil : (Graph.dependentsOf g k).filter
                  (fun a => decide (a ∉ sorted ++ [n])) = [] := by
                rw [List.filter_eq_nil]
                intro a ha
                simp only [decide_eq_true_eq, not_not]
                exact hsub a ha
              rw [hnil] at hcnt
              have hdeg1 : degGet deg k = 1 := by
                rw [hB k hk]
                simp only [List.length_nil] at hcnt
                omega
              exact Or.inl (List.mem_append.mpr
                (Or.inr ((hadds_mem k).mpr ⟨hkL, hdeg1⟩)))
            · have hsub' : ∀ a ∈ Graph.dependentsOf g k, a ∈ sorted := by
                intro a ha
                rcases List.mem_append.mp (hsub a ha) with h | h
                · exact h
                · rw [List.mem_singleton] at h
                  exact absurd (h ▸ ha) hnk
              rcases (hC k hk).mp hsub' with h | h
              · rcases List.mem_cons.mp h with h | h
                · refine Or.inr (List.mem_append.mpr (Or.inr ?_))
                  rw [h]
                  exact List.mem_singleton_self n
                · exact Or.inl (List.mem_append.mpr (Or.inl h))
              · exact Or.inr (List.mem_append.mpr (Or.inl h))
          · intro hk'
            rcases hk' with hk' | hk'
            · rcases List.mem_append.mp hk' with hk' | hk'
              · have hsub := (hC k hk).mpr
                  (Or.inl (List.mem_cons_of_mem _ hk'))
                intro a ha
                exact List.mem_append.mpr (Or.inl (hsub a ha))
              · rcases (hadds_mem k).mp hk' with ⟨hkL, hdeg1⟩
                have hnk : n ∈ Graph.dependentsOf g k := (wf_dep_recip hwf hkL).2
                have hlenInt : ((((Graph.dependentsOf g k).filter
                    (fun a => decide (a ∉ sorted))).length : Int)) = 1 :=
                  (hB k hk).symm.trans hdeg1
                have hlen : ((Graph.dependentsOf g k).filter
                    (fun a => decide (a ∉ sorted))).length = 1 := by omega
                rcases List.length_eq_one.mp hlen with ⟨y, hy⟩
                have hny : n = y := by
                  have hm : n ∈ (Graph.dependentsOf g k).filter
                      (fun a => decide (a ∉ sorted)) :=
                    List.mem_filter.mpr ⟨hnk, by simp [hnsorted]⟩
                  rw [hy, List.mem_singleton] at hm
                  exact hm
                intro a ha
                by_cases has : a ∈ sorted
                · exact List.mem_append.mpr (Or.inl has)
                · have hm : a ∈ (Graph.dependentsOf g k).filter
                      (fun a => decide (a ∉ sorted)) :=
                    List.mem_filter.mpr ⟨ha, by simp [has]⟩
                  rw [hy, List.mem_singleton] at hm
                  rw [hm, ← hny]
                  exact List.mem_append.mpr
                    (Or.inr (List.mem_singleton_self n))
            · rcases List.mem_append.mp hk' with hk' | hk'
              · intro a ha
                exact List.mem_append.mpr
                  (Or.inl (take_subset_self (hOrd k hk' a ha)))
              · rw [List.mem_singleton] at hk'
                subst hk'
                intro a ha
                exact List.mem_append.mpr (Or.inl (hDptn a ha))
        · intro b hb a ha
          rcases List.mem_append.mp hb with hb | hb
          · rw [listIdx_append_left [n] hb,
              take_append_le [n] (le_of_lt (listIdx_lt_length hb))]
            exact hOrd b hb a ha
          · rw [List.mem_singleton] at hb
            subst hb
            rw [listIdx_snoc_self hnsorted,
              take_append_le [b] (le_refl sorted.length), List.take_length]
            exact hDptn a ha
      exact ih _ _ _ hinv' (by
        rw [List.length_append, List.length_singleton]
        omega)

/-- Claim C2, amended: the claim as stated fails on cyclic graphs (see
the counterexample), but on every well-formed graph that is acyclic along
dependency edges — witnessed by a rank function that strictly increases
along every `Dependencies` edge — `Graph.Sorted` emits every node of the
graph exactly once, and for every dependency edge from `A` to `B`, `B`
appears strictly later than `A` in the output (in particular no earlier,
which is the claim's ordering requirement). -/
theorem c2_sorted_amended (g : Graph) (rank : Nat → Nat) (hwf : GraphWF g)
    (hrank : ∀ p ∈ g, ∀ b ∈ p.2.Dependencies, rank p.1 < rank b) :
    (Graph.Sorted g).Nodup ∧
      (∀ k, k ∈ Graph.Sorted g ↔ k ∈ Graph.keys g) ∧
      (∀ p ∈ g, ∀ b ∈ p.2.Dependencies,
        listIdx (Graph.Sorted g) p.1 < listIdx (Graph.Sorted g) b) := by
  have hinv0 : KahnInv g (Graph.roots g) (Graph.degInit g) [] := by
    unfold KahnInv
    refine ⟨List.nodup_nil, roots_nodup hwf.1, ?_, roots_sub_keys, ?_, ?_, ?_, ?_, ?_⟩
    · intro k hk
      cases hk
    · intro k _ hk
      cases hk
    · intro k hk
      rw [degGet_degInit hwf.1 k]
      have hfe : (Graph.dependentsOf g k).filter
          (fun a => decide (a ∉ ([] : List Nat))) = Graph.dependentsOf g k :=
        List.filter_eq_self.mpr (fun a _ => by simp)
      rw [hfe]
    · intro k hk
      cases hs : alistFind? (Graph.degInit g) k with
      | none =>
        unfold degGet
        rw [hs]
        exact le_refl 0
      | some v =>
        exact absurd (degInit_isSome_mem (by rw [hs]; rfl)) hk
    · intro k hk
      constructor
      · intro hsub
        refine Or.inl ((mem_roots_iff hwf.1 k).mpr ⟨?_, hk⟩)
        rw [List.eq_nil_iff_forall_not_mem]
        intro a ha
        cases hsub a ha
      · rintro (hr | hr)
        · intro a ha
          rw [((mem_roots_iff hwf.1 k).mp hr).1] at ha
          cases ha
        · cases hr
    · intro b hb
      cases hb
  have hmain := kahn_main g hwf g.length (Graph.roots g) (Graph.degInit g) []
    hinv0 (by rw [List.length_nil]; omega)
  have hS : Graph.Sorted g =
      kahnLoop g g.length (Graph.roots g) (Graph.degInit g) [] := rfl
  rw [← hS] at hmain
  obtain ⟨hnd, hsub, hclosure, hOrd⟩ := hmain
  have hcomplete : ∀ r, ∀ k ∈ Graph.keys g, rank k < r → k ∈ Graph.Sorted g := by
    intro r
    induction r with
    | zero =>
      intro k _ h
      omega
    | succ r ih =>
      intro k hk hr
      apply hclosure k hk
      intro a ha
      have h1 := wf_dept_recip hwf ha
      rcases Option.isSome_iff_exists.mp h1.1 with ⟨na, hna⟩
      have hdep : k ∈ na.Dependencies := by
        have h2 := h1.2
        unfold Graph.depsOf at h2
        rw [hna] at h2
        exact h2
      have hlt : rank a < rank k := hrank (a, na) (alistFind?_mem hna) k hdep
      exact ih a (mem_keys_iff_isSome.mpr h1.1) (by omega)
  refine ⟨hnd, ?_, ?_⟩
  · intro k
    constructor
    · exact hsub k
    · intro hk
      exact hcomplete (rank k + 1) k hk (by omega)
  · intro p hp b hb
    have hfind : Graph.find? g p.1 = some p.2 := alistFind?_of_mem_nodup hwf.1
      (by rcases p with ⟨a, v⟩; exact hp)
    have hbdeps : b ∈ Graph.depsOf g p.1 := by
      unfold Graph.depsOf
      rw [hfind]
      exact hb
    have hrec := wf_dep_recip hwf hbdeps
    have hbS : b ∈ Graph.Sorted g :=
      hcomplete (rank b + 1) b (mem_keys_iff_isSome.mpr hrec.1) (by omega)
    exact mem_take_listIdx_lt _ _ _ (hOrd b hbS p.1 hrec.2)

theorem c2_sorted_amended_witness :
    GraphWF exOrphan ∧
      ((Graph.Sorted exOrphan).Nodup ∧
        (∀ k, k ∈ Graph.Sorted exOrphan ↔ k ∈ Graph.keys exOrphan) ∧
        (∀ p ∈ exOrphan, ∀ b ∈ p.2.Dependencies,
          listIdx (Graph.Sorted exOrphan) p.1 <
            listIdx (Graph.Sorted exOrphan) b)) :=
  ⟨by decide, c2_sorted_amended exOrphan (fun k => k) (by decide) (by decide)⟩

theorem mem_listInsert (x y : Nat) (l : List Nat) :
    x ∈ listInsert y l ↔ (x ∈ l ∨ x = y) := by
  unfold listInsert
  by_cases h : y ∈ l
  · rw [if_pos h]
    constructor
    · exact Or.inl
    · rintro (hx | hx)
      · exact hx
      · exact hx ▸ h
  · rw [if_neg h, List.mem_append, List.mem_singleton]

theorem keys_upd (g : Graph) (k : Nat) (f : Node → Node) :
    Graph.keys (Graph.upd g k f) = Graph.keys g := by
  induction g with
  | nil => rfl
  | cons p rest ih =>
    show Graph.keys ((if p.1 = k then (p.1, f p.2) else p) :: Graph.upd rest k f) =
      Graph.keys (p :: rest)
    by_cases h : p.1 = k
    · rw [if_pos h]
      show p.1 :: Graph.keys (Graph.upd rest k f) = p.1 :: Graph.keys rest
      rw [ih]
    · rw [if_neg h]
      show p.1 :: Graph.keys (Graph.upd rest k f) = p.1 :: Graph.keys rest
      rw [ih]

theorem find?_upd (g : Graph) (k : Nat) (f : Node → Node) (j : Nat) :
    Graph.find? (Graph.upd g k f) j =
      if j = k then (Graph.find? g j).map f else Graph.find? g j := by
  induction g with
  | nil =>
    by_cases h : j = k
    · rw [if_pos h]
      rfl
    · rw [if_neg h]
      rfl
  | cons p rest ih =>
    rcases p with ⟨k0, n0⟩
    have hcons : Graph.upd ((k0, n0) :: rest) k f =
        (if k0 = k then (k0, f n0) else (k0, n0)) :: Graph.upd rest k f := rfl
    rw [hcons]
    by_cases hp : k0 = k
    · rw [if_pos hp, find?_cons, find?_cons]
      by_cases hj : k0 = j
      · rw [if_pos hj, if_pos hj, if_pos (show j = k from hj ▸ hp)]
        rfl
      · rw [if_neg hj, if_neg hj, ih]
    · rw [if_neg hp, find?_cons, find?_cons]
      by_cases hj : k0 = j
      · rw [if_pos hj, if_pos hj,
          if_neg (show ¬ j = k from fun he => hp (hj.trans he))]
      · rw [if_neg hj, if_neg hj, ih]

theorem find?_upd_isSome (g : Graph) (k : Nat) (f : Node → Node) (j : Nat) :
    (Graph.find? (Graph.upd g k f) j).isSome = (Graph.find? g j).isSome := by
  rw [find?_upd]
  by_cases h : j = k
  · rw [if_pos h]
    cases Graph.find? g j <;> rfl
  · rw [if_neg h]

theorem find?_AddNode (g : Graph) (k j : Nat) :
    Graph.find? (Graph.AddNode g k) j =
      if j = k ∧ Graph.find? g k = none then some Node.empty
      else Graph.find? g j := by
  unfold Graph.AddNode
  by_cases hk : (Graph.find? g k).isSome
  · rw [if_pos hk, if_neg (by
      rintro ⟨h1, h2⟩
      rw [h2] at hk
      cases hk)]
  · have hknone : Graph.find? g k = none := Option.not_isSome_iff_eq_none.mp hk
    rw [if_neg hk]
    by_cases hj : j = k
    · rw [if_pos ⟨hj, hknone⟩]
      subst hj
      show alistFind? (g ++ [(j, Node.empty)]) j = some Node.empty
      exact alistFind?_snoc_self Node.empty hknone
    · rw [if_neg (fun hc => hj hc.1)]
      cases hfj : Graph.find? g j with
      | some v => exact alistFind?_append_left _ hfj
      | none =>
        show alistFind? (g ++ [(k, Node.empty)]) j = none
        rw [alistFind?_append_none _ hfj, alistFind?_singleton,
          if_neg (fun hc => hj hc.symm)]

theorem find?_AddNode_isSome_self (g : Graph) (k : Nat) :
    (Graph.find? (Graph.AddNode g k) k).isSome := by
  rw [find?_AddNode]
  by_cases h : Graph.find? g k = none
  · rw [if_pos ⟨rfl, h⟩]
    rfl
  · rw [if_neg (fun hc => h hc.2)]
    exact Option.ne_none_iff_isSome.mp h

theorem find?_AddNode_isSome_mono {g : Graph} {j : Nat} (k : Nat)
    (h : (Graph.find? g j).isSome) :
    (Graph.find? (Graph.AddNode g k) j).isSome := by
  rw [find?_AddNode]
  by_cases hc : j = k ∧ Graph.find? g k = none
  · rw [if_pos hc]
    rfl
  · rw [if_neg hc]
    exact h

theorem mem_keys_AddNode_mono {g : Graph} {j : Nat} (k : Nat)
    (h : j ∈ Graph.keys g) : j ∈ Graph.keys (Graph.AddNode g k) :=
  mem_keys_iff_isSome.mpr (find?_AddNode_isSome_mono k (mem_keys_iff_isSome.mp h))

theorem keys_AddNode_nodup {g : Graph} (hnd : (Graph.keys g).Nodup) (k : Nat) :
    (Graph.keys (Graph.AddNode g k)).Nodup := by
  unfold Graph.AddNode
  by_cases hk : (Graph.find? g k).isSome
  · rw [if_pos hk]
    exact hnd
  · rw [if_neg hk]
    have hkeq : Graph.keys (g ++ [(k, Node.empty)]) = Graph.keys g ++ [k] := by
      unfold Graph.keys
      rw [List.map_append]
      rfl
    rw [hkeq, List.nodup_append]
    refine ⟨hnd, List.nodup_singleton k, ?_⟩
    intro a ha hb
    rw [List.mem_singleton] at hb
    exact hk (mem_keys_iff_isSome.mp (hb ▸ ha))

theorem depsOf_AddNode (g : Graph) (k j : Nat) :
    Graph.depsOf (Graph.AddNode g k) j = Graph.depsOf g j := by
  unfold Graph.depsOf
  rw [find?_AddNode]
  by_cases h : j = k ∧ Graph.find? g k = none
  · rw [if_pos h, h.1, h.2]
    rfl
  · rw [if_neg h]

theorem dependentsOf_AddNode (g : Graph) (k j : Nat) :
    Graph.dependentsOf (Graph.AddNode g k) j = Graph.dependentsOf g j := by
  unfold Graph.dependentsOf
  rw [find?_AddNode]
  by_cases h : j = k ∧ Graph.find? g k = none
  · rw [if_pos h, h.1, h.2]
    rfl
  · rw [if_neg h]

theorem optsOf_AddNode (g : Graph) (k j : Nat) :
    Graph.optsOf (Graph.AddNode g k) j = Graph.optsOf g j := by
  unfold Graph.optsOf
  rw [find?_AddNode]
  by_cases h : j = k ∧ Graph.find? g k = none
  · rw [if_pos h, h.1, h.2]
    rfl
  · rw [if_neg h]

theorem depsOf_upd_frame (g : Graph) (k : Nat) (f : Node → Node)
    (hf : ∀ n, (f n).Dependencies = n.Dependencies) (j : Nat) :
    Graph.depsOf (Graph.upd g k f) j = Graph.depsOf g j := by
  unfold Graph.depsOf
  rw [find?_upd]
  by_cases h : j = k
  · rw [if_pos h]
    cases hfj : Graph.find? g j with
    | none => rfl
    | some v =>
      show (f v).Dependencies = v.Dependencies
      exact hf v
  · rw [if_neg h]

theorem dependentsOf_upd_frame (g : Graph) (k : Nat) (f : Node → Node)
    (hf : ∀ n, (f n).Dependents = n.Dependents) (j : Nat) :
    Graph.dependentsOf (Graph.upd g k f) j = Graph.dependentsOf g j := by
  unfold Graph.dependentsOf
  rw [find?_upd]
  by_cases h : j = k
  · rw [if_pos h]
    cases hfj : Graph.find? g j with
    | none => rfl
    | some v =>
      show (f v).Dependents = v.Dependents
      exact hf v
  · rw [if_neg h]

theorem depsOf_addOpt1 (g : Graph) (src dst j : Nat) :
    Graph.depsOf (Graph.addOpt1 g src dst) j = Graph.depsOf g j := by
  rw [show Graph.addOpt1 g src dst = Graph.upd (Graph.AddNode g dst) src
      (fun n => { n with Optionals := listInsert dst n.Optionals }) from rfl,
    depsOf_upd_frame (Graph.AddNode g dst) src
      (fun n => { n with Optionals := listInsert dst n.Optionals })
      (fun n => rfl) j, depsOf_AddNode]

theorem dependentsOf_addOpt1 (g : Graph) (src dst j : Nat) :
    Graph.dependentsOf (Graph.addOpt1 g src dst) j = Graph.dependentsOf g j := by
  rw [show Graph.addOpt1 g src dst = Graph.upd (Graph.AddNode g dst) src
      (fun n => { n with Optionals := listInsert dst n.Optionals }) from rfl,
    dependentsOf_upd_frame (Graph.AddNode g dst) src
      (fun n => { n with Optionals := listInsert dst n.Optionals })
      (fun n => rfl) j, dependentsOf_AddNode]

theorem keys_addOpt1 (g : Graph) (src dst : Nat) :
    Graph.keys (Graph.addOpt1 g src dst) = Graph.keys (Graph.AddNode g dst) := by
  rw [show Graph.addOpt1 g src dst = Graph.upd (Graph.AddNode g dst) src
      (fun n => { n with Optionals := listInsert dst n.Optionals }) from rfl,
    keys_upd]

theorem optsOf_addOpt1_self {g : Graph} {src : Nat} (dst : Nat)
    (hsrc : (Graph.find? g src).isSome) :
    Graph.optsOf (Graph.addOpt1 g src dst) src =
      listInsert dst (Graph.optsOf g src) := by
  rcases Option.isSome_iff_exists.mp hsrc with ⟨v, hv⟩
  unfold Graph.optsOf
  rw [show Graph.addOpt1 g src dst = Graph.upd (Graph.AddNode g dst) src
      (fun n => { n with Optionals := listInsert dst n.Optionals }) from rfl,
    find?_upd, if_pos rfl, find?_AddNode]
  rw [if_neg (by
    rintro ⟨h1, h2⟩
    rw [← h1, hv] at h2
    cases h2), hv]
  rfl

theorem optsOf_addOpt1_ne {g : Graph} {src j : Nat} (dst : Nat) (h : j ≠ src) :
    Graph.optsOf (Graph.addOpt1 g src dst) j = Graph.optsOf g j := by
  unfold Graph.optsOf
  rw [show Graph.addOpt1 g src dst = Graph.upd (Graph.AddNode g dst) src
      (fun n => { n with Optionals := listInsert dst n.Optionals }) from rfl,
    find?_upd, if_neg h, find?_AddNode]
  by_cases hc : j = dst ∧ Graph.find? g dst = none
  · rw [if_pos hc, hc.1, hc.2]
    rfl
  · rw [if_neg hc]

theorem keys_addDep1 (g : Graph) (src dst : Nat) :
    Graph.keys (Graph.addDep1 g src dst) = Graph.keys (Graph.AddNode g dst) := by
  rw [show Graph.addDep1 g src dst =
      Graph.upd (Graph.upd (Graph.AddNode g dst) src
        (fun n => { n with Dependencies := listInsert dst n.Dependencies })) dst
        (fun n => { n with Dependents := listInsert src n.Dependents }) from rfl,
    keys_upd, keys_upd]

theorem find?_addDep1_isSome (g : Graph) (src dst j : Nat) :
    (Graph.find? (Graph.addDep1 g src dst) j).isSome =
      (Graph.find? (Graph.AddNode g dst) j).isSome := by
  rw [show Graph.addDep1 g src dst =
      Graph.upd (Graph.upd (Graph.AddNode g dst) src
        (fun n => { n with Dependencies := listInsert dst n.Dependencies })) dst
        (fun n => { n with Dependents := listInsert src n.Dependents }) from rfl,
    find?_upd_isSome, find?_upd_isSome]

theorem depsOf_addDep1 {g : Graph} {src : Nat} (dst j : Nat)
    (hsrc : (Graph.find? g src).isSome) :
    Graph.depsOf (Graph.addDep1 g src dst) j =
      if j = src then listInsert dst (Graph.depsOf g j) else Graph.depsOf g j := by
  rcases Option.isSome_iff_exists.mp hsrc with ⟨v, hv⟩
  rw [show Graph.addDep1 g src dst =
      Graph.upd (Graph.upd (Graph.AddNode g dst) src
        (fun n => { n with Dependencies := listInsert dst n.Dependencies })) dst
        (fun n => { n with Dependents := listInsert src n.Dependents }) from rfl,
    depsOf_upd_frame
      (Graph.upd (Graph.AddNode g dst) src
        (fun n => { n with Dependencies := listInsert dst n.Dependencies })) dst
      (fun n => { n with Dependents := listInsert src n.Dependents })
      (fun n => rfl) j]
  unfold Graph.depsOf
  rw [find?_upd]
  by_cases hj : j = src
  · rw [if_pos hj, if_pos hj]
    have hcond : ¬ (j = dst ∧ Graph.find? g dst = none) := by
      rintro ⟨h1, h2⟩
      rw [← h1, hj, hv] at h2
      cases h2
    have hg1 : Graph.find? (Graph.AddNode g dst) j = some v := by
      rw [find?_AddNode, if_neg hcond, hj, hv]
    rw [hg1, hj, hv]
    rfl
  · rw [if_neg hj, if_neg hj, find?_AddNode]
    by_cases hc : j = dst ∧ Graph.find? g dst = none
    · rw [if_pos hc, hc.1, hc.2]
      rfl
    · rw [if_neg hc]

theorem dependentsOf_addDep1 (g : Graph) (src dst j : Nat) :
    Graph.dependentsOf (Graph.addDep1 g src dst) j =
      if j = dst then listInsert src (Graph.dependentsOf g j)
      else Graph.dependentsOf g j := by
  rw [show Graph.addDep1 g src dst =
      Graph.upd (Graph.upd (Graph.AddNode g dst) src
        (fun n => { n with Dependencies := listInsert dst n.Dependencies })) dst
        (fun n => { n with Dependents := listInsert src n.Dependents }) from rfl]
  unfold Graph.dependentsOf
  rw [find?_upd]
  by_cases hj : j = dst
  · rw [if_pos hj, if_pos hj]
    subst hj
    rw [find?_upd]
    by_cases hds : j = src
    · rw [if_pos hds]
      cases hfd : Graph.find? g j with
      | none =>
        have hsome : Graph.find? (Graph.AddNode g j) j = some Node.empty := by
          rw [find?_AddNode, if_pos ⟨rfl, hfd⟩]
        rw [hsome]
        rfl
      | some w =>
        have hsome : Graph.find? (Graph.AddNode g j) j = some w := by
          rw [find?_AddNode, if_neg (by
            rintro ⟨h1, h2⟩
            rw [hfd] at h2
            cases h2), hfd]
        rw [hsome]
        rfl
    · rw [if_neg hds]
      cases hfd : Graph.find? g j with
      | none =>
        have hsome : Graph.find? (Graph.AddNode g j) j = some Node.empty := by
          rw [find?_AddNode, if_pos ⟨rfl, hfd⟩]
        rw [hsome]
        rfl
      | some w =>
        have hsome : Graph.find? (Graph.AddNode g j) j = some w := by
          rw [find?_AddNode, if_neg (by
            rintro ⟨h1, h2⟩
            rw [hfd] at h2
            cases h2), hfd]
        rw [hsome]
        rfl
  · rw [if_neg hj, if_neg hj, find?_upd]
    by_cases hjs : j = src
    · rw [if_pos hjs, find?_AddNode]
      by_cases hc : j = dst ∧ Graph.find? g dst = none
      · exact absurd hc.1 hj
      · rw [if_neg hc]
        cases hfj : Graph.find? g j with
        | none => rfl
        | some w => rfl
    · rw [if_neg hjs, find?_AddNode]
      by_cases hc : j = dst ∧ Graph.find? g dst = none
      · exact absurd hc.1 hj
      · rw [if_neg hc]

theorem RemoveNode_eq (g : Graph) (k : Nat) :
    Graph.RemoveNode g k =
      if (Graph.find? g k).isNone then g
      else (g.filter (fun p => p.1 ≠ k)).map (fun p => (p.1, scrubN k p.2)) := rfl

theorem alistFind?_scrub (g : Graph) (k j : Nat) :
    alistFind? ((g.filter (fun p => p.1 ≠ k)).map
        (fun p => (p.1, scrubN k p.2))) j =
      if j = k then none else (alistFind? g j).map (scrubN k) := by
  induction g with
  | nil =>
    by_cases h : j = k
    · rw [if_pos h]
      rfl
    · rw [if_neg h]
      rfl
  | cons p rest ih =>
    rcases p with ⟨k0, n0⟩
    by_cases hk0 : k0 = k
    · rw [List.filter_cons_of_neg (by simp [hk0]), ih]
      by_cases hj : j = k
      · rw [if_pos hj, if_pos hj]
      · rw [if_neg hj, if_neg hj, alistFind?_cons,
          if_neg (fun he => hj (he.symm.trans hk0))]
    · rw [List.filter_cons_of_pos (by simp [hk0]), List.map_cons]
      show alistFind? ((k0, scrubN k n0) ::
          List.map (fun p => (p.1, scrubN k p.2))
            (List.filter (fun p => decide (p.1 ≠ k)) rest)) j = _
      rw [alistFind?_cons]
      by_cases hj : j = k
      · rw [if_neg (fun he => hk0 (he.trans hj)), ih, if_pos hj, if_pos hj]
      · by_cases hj0 : k0 = j
        · rw [if_pos hj0, if_neg hj, alistFind?_cons, if_pos hj0]
          rfl
        · rw [if_neg hj0, ih, if_neg hj, if_neg hj, alistFind?_cons, if_neg hj0]

theorem find?_RemoveNode_else {g : Graph} {k : Nat}
    (h : ¬ (Graph.find? g k).isNone) (j : Nat) :
    Graph.find? (Graph.RemoveNode g k) j =
      if j = k then none else (Graph.find? g j).map (scrubN k) := by
  rw [RemoveNode_eq, if_neg h]
  exact alistFind?_scrub g k j

theorem keys_filterMap_scrub (g : Graph) (k : Nat) :
    Graph.keys ((g.filter (fun p => p.1 ≠ k)).map
        (fun p => (p.1, scrubN k p.2))) =
      (Graph.keys g).filter (fun x => x ≠ k) := by
  unfold Graph.keys
  induction g with
  | nil => rfl
  | cons p rest ih =>
    rcases p with ⟨k0, n0⟩
    by_cases h : k0 = k
    · rw [List.filter_cons_of_neg (by simp [h]), List.map_cons,
        List.filter_cons_of_neg (by simp [h]), ih]
    · rw [List.filter_cons_of_pos (by simp [h]), List.map_cons, List.map_cons,
        List.map_cons, List.filter_cons_of_pos (by simp [h])]
      exact congrArg (List.cons k0) ih

theorem keys_RemoveNode_else {g : Graph} {k : Nat}
    (h : ¬ (Graph.find? g k).isNone) :
    Graph.keys (Graph.RemoveNode g k) = (Graph.keys g).filter (fun x => x ≠ k) := by
  rw [RemoveNode_eq, if_neg h]
  exact keys_filterMap_scrub g k

theorem depsOf_RemoveNode_else {g : Graph} {k : Nat}
    (h : ¬ (Graph.find? g k).isNone) (j : Nat) :
    Graph.depsOf (Graph.RemoveNode g k) j =
      if j = k then [] else (Graph.depsOf g j).filter (fun x => x ≠ k) := by
  unfold Graph.depsOf
  rw [find?_RemoveNode_else h]
  by_cases hj : j = k
  · rw [if_pos hj, if_pos hj]
    rfl
  · rw [if_neg hj, if_neg hj]
    cases hfj : Graph.find? g j with
    | none => rfl
    | some v => rfl

theorem dependentsOf_RemoveNode_else {g : Graph} {k : Nat}
    (h : ¬ (Graph.find? g k).isNone) (j : Nat) :
    Graph.dependentsOf (Graph.RemoveNode g k) j =
      if j = k then [] else (Graph.dependentsOf g j).filter (fun x => x ≠ k) := by
  unfold Graph.dependentsOf
  rw [find?_RemoveNode_else h]
  by_cases hj : j = k
  · rw [if_pos hj, if_pos hj]
    rfl
  · rw [if_neg hj, if_neg hj]
    cases hfj : Graph.find? g j with
    | none => rfl
    | some v => rfl

theorem edgeInv_char (g : Graph) :
    EdgeInv g ↔ ((Graph.keys g).Nodup ∧
      (∀ a b : Nat, b ∈ Graph.depsOf g a ↔ a ∈ Graph.dependentsOf g b) ∧
      (∀ a b : Nat, b ∈ Graph.depsOf g a →
        a ∈ Graph.keys g ∧ b ∈ Graph.keys g)) := by
  constructor
  · intro h
    obtain ⟨hnd, hp⟩ := h
    refine ⟨hnd, ?_, ?_⟩
    · intro a b
      constructor
      · intro hb
        cases hfa : Graph.find? g a with
        | none =>
          exfalso
          unfold Graph.depsOf at hb
          rw [hfa] at hb
          cases hb
        | some na =>
          unfold Graph.depsOf at hb
          rw [hfa] at hb
          have h2 := (hp (a, na) (alistFind?_mem hfa)).1 b hb
          rw [← dependentsOf_getD h2.1]
          exact h2.2
      · intro ha
        cases hfb : Graph.find? g b with
        | none =>
          exfalso
          rw [dependentsOf_of_find?_none hfb] at ha
          cases ha
        | some nb =>
          rw [dependentsOf_of_find?_some hfb] at ha
          have h2 := (hp (b, nb) (alistFind?_mem hfb)).2 a ha
          rw [← depsOf_getD h2.1]
          exact h2.2
    · intro a b hb
      cases hfa : Graph.find? g a with
      | none =>
        exfalso
        unfold Graph.depsOf at hb
        rw [hfa] at hb
        cases hb
      | some na =>
        have hb' : b ∈ na.Dependencies := by
          unfold Graph.depsOf at hb
          rw [hfa] at hb
          exact hb
        have h2 := (hp (a, na) (alistFind?_mem hfa)).1 b hb'
        exact ⟨mem_keys_iff_isSome.mpr (by rw [hfa]; rfl),
          mem_keys_iff_isSome.mpr h2.1⟩
  · intro h
    obtain ⟨hnd, hiff, hcl⟩ := h
    refine ⟨hnd, ?_⟩
    intro p hp
    rcases p with ⟨a, na⟩
    have hfa : Graph.find? g a = some na := alistFind?_of_mem_nodup hnd hp
    constructor
    · intro b hb
      have hb' : b ∈ Graph.depsOf g a := by
        unfold Graph.depsOf
        rw [hfa]
        exact hb
      have h1 := (hiff a b).mp hb'
      have hs : (Graph.find? g b).isSome :=
        mem_keys_iff_isSome.mp (hcl a b hb').2
      refine ⟨hs, ?_⟩
      rw [dependentsOf_getD hs]
      exact h1
    · intro b hb
      have hb' : b ∈ Graph.dependentsOf g a := by
        rw [dependentsOf_of_find?_some hfa]
        exact hb
      have h1 := (hiff b a).mpr hb'
      have hs : (Graph.find? g b).isSome :=
        mem_keys_iff_isSome.mp (hcl b a h1).1
      refine ⟨hs, ?_⟩
      rw [depsOf_getD hs]
      exact h1

theorem edgeInv_AddNode {g : Graph} (h : EdgeInv g) (k : Nat) :
    EdgeInv (Graph.AddNode g k) := by
  rw [edgeInv_char] at h ⊢
  obtain ⟨hnd, hiff, hcl⟩ := h
  refine ⟨keys_AddNode_nodup hnd k, ?_, ?_⟩
  · intro a b
    rw [depsOf_AddNode, dependentsOf_AddNode]
    exact hiff a b
  · intro a b hb
    rw [depsOf_AddNode] at hb
    obtain ⟨h1, h2⟩ := hcl a b hb
    exact ⟨mem_keys_AddNode_mono k h1, mem_keys_AddNode_mono k h2⟩

theorem edgeInv_addOpt1 {g : Graph} (h : EdgeInv g) (src dst : Nat) :
    EdgeInv (Graph.addOpt1 g src dst) := by
  have h1 := edgeInv_AddNode h dst
  rw [edgeInv_char] at h1 ⊢
  obtain ⟨hnd, hiff, hcl⟩ := h1
  refine ⟨?_, ?_, ?_⟩
  · rw [keys_addOpt1]
    exact hnd
  · intro a b
    rw [depsOf_addOpt1, dependentsOf_addOpt1]
    rw [← depsOf_AddNode g dst a, ← dependentsOf_AddNode g dst b]
    exact hiff a b
  · intro a b hb
    rw [depsOf_addOpt1, ← depsOf_AddNode g dst a] at hb
    rw [keys_addOpt1]
    exact hcl a b hb

theorem edgeInv_AddOptionals {g : Graph} (h : EdgeInv g) (src : Nat)
    (ks : List Nat) : EdgeInv (Graph.AddOptionals g src ks) := by
  induction ks generalizing g with
  | nil => exact h
  | cons d rest ih => exact ih (edgeInv_addOpt1 h src d)

theorem edgeInv_addDep1 {g : Graph} {src : Nat} (h : EdgeInv g) (dst : Nat)
    (hsrc : (Graph.find? g src).isSome) : EdgeInv (Graph.addDep1 g src dst) := by
  rw [edgeInv_char] at h ⊢
  obtain ⟨hnd, hiff, hcl⟩ := h
  refine ⟨?_, ?_, ?_⟩
  · rw [keys_addDep1]
    exact keys_AddNode_nodup hnd dst
  · intro a b
    rw [depsOf_addDep1 dst a hsrc, dependentsOf_addDep1]
    by_cases ha : a = src
    · by_cases hb : b = dst
      · rw [if_pos ha, if_pos hb, mem_listInsert, mem_listInsert]
        constructor
        · intro _
          exact Or.inr ha
        · intro _
          exact Or.inr hb
      · rw [if_pos ha, if_neg hb, mem_listInsert]
        constructor
        · rintro (hm | hm)
          · exact (hiff a b).mp hm
          · exact absurd hm hb
        · intro hm
          exact Or.inl ((hiff a b).mpr hm)
    · by_cases hb : b = dst
      · rw [if_neg ha, if_pos hb, mem_listInsert]
        constructor
        · intro hm
          exact Or.inl ((hiff a b).mp hm)
        · rintro (hm | hm)
          · exact (hiff a b).mpr hm
          · exact absurd hm ha
      · rw [if_neg ha, if_neg hb]
        exact hiff a b
  · intro a b hb
    rw [depsOf_addDep1 dst a hsrc] at hb
    rw [keys_addDep1]
    by_cases ha : a = src
    · rw [if_pos ha, mem_listInsert] at hb
      rcases hb with hb | hb
      · obtain ⟨h1, h2⟩ := hcl a b hb
        exact ⟨mem_keys_AddNode_mono dst h1, mem_keys_AddNode_mono dst h2⟩
      · refine ⟨?_, ?_⟩
        · rw [ha]
          exact mem_keys_AddNode_mono dst (mem_keys_iff_isSome.mpr hsrc)
        · rw [hb]
          exact mem_keys_iff_isSome.mpr (find?_AddNode_isSome_self g dst)
    · rw [if_neg ha] at hb
      obtain ⟨h1, h2⟩ := hcl a b hb
      exact ⟨mem_keys_AddNode_mono dst h1, mem_keys_AddNode_mono dst h2⟩

theorem edgeInv_AddDependencies {g : Graph} {src : Nat} (h : EdgeInv g)
    (hsrc : (Graph.find? g src).isSome) (ks : List Nat) :
    EdgeInv (Graph.AddDependencies g src ks) := by
  induction ks generalizing g with
  | nil => exact h
  | cons d rest ih =>
    refine ih (edgeInv_addDep1 h d hsrc) ?_
    rw [find?_addDep1_isSome]
    exact find?_AddNode_isSome_mono d hsrc

theorem edgeInv_RemoveNode {g : Graph} (h : EdgeInv g) (k : Nat) :
    EdgeInv (Graph.RemoveNode g k) := by
  rw [edgeInv_char] at h ⊢
  obtain ⟨hnd, hiff, hcl⟩ := h
  by_cases hk : (Graph.find? g k).isNone
  · rw [RemoveNode_eq, if_pos hk]
    exact ⟨hnd, hiff, hcl⟩
  · refine ⟨?_, ?_, ?_⟩
    · rw [keys_RemoveNode_else hk]
      exact List.Nodup.filter _ hnd
    · intro a b
      rw [depsOf_RemoveNode_else hk, dependentsOf_RemoveNode_else hk]
      by_cases ha : a = k
      · by_cases hb : b = k
        · rw [if_pos ha, if_pos hb]
          simp
        · rw [if_pos ha, if_neg hb]
          constructor
          · intro hm
            cases hm
          · intro hm
            have hdec := List.of_mem_filter hm
            rw [ha] at hdec
            simp at hdec
      · by_cases hb : b = k
        · rw [if_neg ha, if_pos hb]
          constructor
          · intro hm
            have hdec := List.of_mem_filter hm
            rw [hb] at hdec
            simp at hdec
          · intro hm
            cases hm
        · rw [if_neg ha, if_neg hb]
          constructor
          · intro hm
            exact List.mem_filter.mpr
              ⟨(hiff a b).mp (List.mem_of_mem_filter hm), by simp [ha]⟩
          · intro hm
            exact List.mem_filter.mpr
              ⟨(hiff a b).mpr (List.mem_of_mem_filter hm), by simp [hb]⟩
    · intro a b hb
      rw [depsOf_RemoveNode_else hk] at hb
      rw [keys_RemoveNode_else hk]
      by_cases ha : a = k
      · rw [if_pos ha] at hb
        cases hb
      · rw [if_neg ha] at hb
        have hbk : b ≠ k := by simpa using List.of_mem_filter hb
        obtain ⟨ha1, hb1⟩ := hcl a b (List.mem_of_mem_filter hb)
        exact ⟨List.mem_filter.mpr ⟨ha1, by simp [ha]⟩,
          List.mem_filter.mpr ⟨hb1, by simp [hbk]⟩⟩

/-- Claim C7: every `Graph` operation preserves the edge-bookkeeping
invariant `EdgeInv` — under it, `B ∈ A.Dependencies` iff
`A ∈ B.Dependents` (first conjunct), and the invariant survives
`AddNode`, `AddDependencies` (called, as in the source, on a node that
exists in the graph), `AddOptionals` and `RemoveNode` — while an optional
edge added from `src` to `dst` inserts `dst` only into `src`'s
`Optionals`: every node's `Dependents` and `Dependencies` sets are left
unchanged, the `Optionals` of every other node are left unchanged, and
`src`'s `Optionals` gain exactly `dst`. -/
theorem c7_edge_bookkeeping (g : Graph) (hinv : EdgeInv g) :
    (∀ a b, b ∈ Graph.depsOf g a ↔ a ∈ Graph.dependentsOf g b) ∧
      (∀ k, EdgeInv (Graph.AddNode g k)) ∧
      (∀ src ks, (Graph.find? g src).isSome →
        EdgeInv (Graph.AddDependencies g src ks)) ∧
      (∀ src ks, EdgeInv (Graph.AddOptionals g src ks)) ∧
      (∀ k, EdgeInv (Graph.RemoveNode g k)) ∧
      (∀ src dst,
        (∀ j, Graph.dependentsOf (Graph.AddOptionals g src [dst]) j =
          Graph.dependentsOf g j) ∧
        (∀ j, Graph.depsOf (Graph.AddOptionals g src [dst]) j =
          Graph.depsOf g j) ∧
        (∀ j, j ≠ src → Graph.optsOf (Graph.AddOptionals g src [dst]) j =
          Graph.optsOf g j) ∧
        ((Graph.find? g src).isSome →
          Graph.optsOf (Graph.AddOptionals g src [dst]) src =
            listInsert dst (Graph.optsOf g src))) := by
  refine ⟨((edgeInv_char g).mp hinv).2.1, fun k => edgeInv_AddNode hinv k,
    fun src ks hsrc => edgeInv_AddDependencies hinv hsrc ks,
    fun src ks => edgeInv_AddOptionals hinv src ks,
    fun k => edgeInv_RemoveNode hinv k,
    fun src dst => ⟨?_, ?_, ?_, ?_⟩⟩
  · intro j
    rw [show Graph.AddOptionals g src [dst] = Graph.addOpt1 g src dst from rfl]
    exact dependentsOf_addOpt1 g src dst j
  · intro j
    rw [show Graph.AddOptionals g src [dst] = Graph.addOpt1 g src dst from rfl]
    exact depsOf_addOpt1 g src dst j
  · intro j hj
    rw [show Graph.AddOptionals g src [dst] = Graph.addOpt1 g src dst from rfl]
    exact optsOf_addOpt1_ne dst hj
  · intro hsrc
    rw [show Graph.AddOptionals g src [dst] = Graph.addOpt1 g src dst from rfl]
    exact optsOf_addOpt1_self dst hsrc

theorem c7_edge_bookkeeping_witness :
    EdgeInv exOrphan ∧ (Graph.find? exOrphan 1).isSome ∧
      ((2 ∈ Graph.depsOf exOrphan 1 ↔ 1 ∈ Graph.dependentsOf exOrphan 2) ∧
        EdgeInv (Graph.AddNode exOrphan 3) ∧
        EdgeInv (Graph.AddDependencies exOrphan 1 [3]) ∧
        EdgeInv (Graph.AddOptionals exOrphan 1 [3]) ∧
        EdgeInv (Graph.RemoveNode exOrphan 2) ∧
        Graph.optsOf (Graph.AddOptionals exOrphan 1 [3]) 1 =
          listInsert 3 (Graph.optsOf exOrphan 1)) :=
  ⟨by decide, by decide,
    (c7_edge_bookkeeping exOrphan (by decide)).1 1 2,
    (c7_edge_bookkeeping exOrphan (by decide)).2.1 3,
    (c7_edge_bookkeeping exOrphan (by decide)).2.2.1 1 [3] (by decide),
    (c7_edge_bookkeeping exOrphan (by decide)).2.2.2.1 1 [3],
    (c7_edge_bookkeeping exOrphan (by decide)).2.2.2.2.1 2,
    ((c7_edge_bookkeeping exOrphan (by decide)).2.2.2.2.2 1 3).2.2.2 (by decide)⟩

end Mcdex
